import Mathlib

/-!
# Verification of the `wikimisc` tiered key–value store core

Shallow embedding of the repository's storage core:

* `src/disk_free.rs` — `PositionLength`, `DiskFree` (free-extent allocator
  with coalescing `add` and exact-fit-then-first-fit `find_free`);
* `src/file_hash.rs` — `FileHash` (tiered key–value store: in-memory
  `HashMap` until `max_mem_entries` is reached, then a disk-backed index
  `id2pos` over a shared temp file, with a plain `Vec<(u64,u64)>` free
  list `disk_free` consulted first-fit by `get_file_pos_to_write`);
* `src/file_vec.rs` — `FileVec` (an indexed sequence over
  `FileHash<usize, V>` plus a `len` counter).

Rust `HashMap`s are modelled as association lists: `insert` is
"erase the key, then cons the new pair", which has the same observable
`get`/`remove`/`len`/`keys` semantics (iteration order of a `HashMap` is
unspecified; the model fixes one order). Disk offsets and lengths are
`u64` in the source; they are modelled as `Nat`, since every reachable
extent lies inside a file and cannot overflow. The one place where
fixed-width wrap-around is observable — `self.len - 1` on a `usize` in
`FileVec::reverse` — is modelled explicitly with `% 2^64` (release-mode
wrapping; debug mode panics at the same input).

`serde_json` serialization is external to the repository; it is modelled
as an abstract `Codec` (an encode function to bytes and a partial decode),
and theorems that need the documented round-trip property take it as a
hypothesis, discharged on a concrete codec in the witnesses.
-/

namespace Wikimisc

/-! ## Association-list model of `std::collections::HashMap` -/

section AssocMap

variable {K : Type} {A : Type} [DecidableEq K]

/-- `HashMap::get`: the value stored for `k`, if any. -/
def lookup : List (K × A) → K → Option A
  | [], _ => none
  | (k', a) :: rest, k => if k' = k then some a else lookup rest k

/-- Erase every pair whose key is `k` (the state change of `HashMap::remove`). -/
def eraseKey : List (K × A) → K → List (K × A)
  | [], _ => []
  | (k', a) :: rest, k => if k' = k then eraseKey rest k else (k', a) :: eraseKey rest k

/-- `HashMap::insert`: replace any existing binding of `k` by `a`. -/
def insertPair (m : List (K × A)) (k : K) (a : A) : List (K × A) :=
  (k, a) :: eraseKey m k

@[simp] theorem lookup_nil (k : K) : lookup ([] : List (K × A)) k = none := rfl

@[simp] theorem lookup_cons (k' : K) (a : A) (rest : List (K × A)) (k : K) :
    lookup ((k', a) :: rest) k = if k' = k then some a else lookup rest k := rfl

@[simp] theorem lookup_eraseKey_self (m : List (K × A)) (k : K) :
    lookup (eraseKey m k) k = none := by
  induction m with
  | nil => rfl
  | cons p rest ih =>
    obtain ⟨k', a⟩ := p
    by_cases h : k' = k
    · simpa [eraseKey, h] using ih
    · simpa [eraseKey, h] using ih

theorem lookup_eraseKey_ne (m : List (K × A)) (k j : K) (h : k ≠ j) :
    lookup (eraseKey m k) j = lookup m j := by
  induction m with
  | nil => rfl
  | cons p rest ih =>
    obtain ⟨k', a⟩ := p
    by_cases h1 : k' = k
    · have h2 : k' ≠ j := fun hc => h (h1.symm.trans hc)
      simpa [eraseKey, h1, h2, h] using ih
    · by_cases h2 : k' = j
      · simp [eraseKey, h1, h2, Ne.symm h]
      · simpa [eraseKey, h1, h2] using ih

@[simp] theorem lookup_insertPair_self (m : List (K × A)) (k : K) (a : A) :
    lookup (insertPair m k a) k = some a := by
  simp [insertPair]

theorem lookup_insertPair_ne (m : List (K × A)) (k j : K) (a : A) (h : k ≠ j) :
    lookup (insertPair m k a) j = lookup m j := by
  simp [insertPair, h, lookup_eraseKey_ne m k j h]

theorem lookup_isSome_of_mem_keys (m : List (K × A)) (k : K)
    (h : k ∈ m.map Prod.fst) : (lookup m k).isSome := by
  induction m with
  | nil => simp at h
  | cons p rest ih =>
    obtain ⟨k', a⟩ := p
    by_cases hp : k' = k
    · simp [hp]
    · simp only [List.map_cons, List.mem_cons] at h
      rcases h with h | h
      · exact absurd h.symm hp
      · simpa [hp] using ih h

theorem mem_keys_of_mem_keys_eraseKey (m : List (K × A)) (k x : K)
    (h : x ∈ (eraseKey m k).map Prod.fst) : x ∈ m.map Prod.fst := by
  induction m with
  | nil => exact h
  | cons p rest ih =>
    obtain ⟨k', a⟩ := p
    by_cases h1 : k' = k
    · simp only [eraseKey, if_pos h1] at h
      simp [ih h]
    · simp only [eraseKey, if_neg h1, List.map_cons, List.mem_cons] at h ⊢
      rcases h with h | h
      · exact Or.inl h
      · exact Or.inr (ih h)

theorem not_mem_keys_eraseKey (m : List (K × A)) (k : K) :
    k ∉ (eraseKey m k).map Prod.fst := by
  induction m with
  | nil => simp [eraseKey]
  | cons p rest ih =>
    obtain ⟨k', a⟩ := p
    by_cases h1 : k' = k
    · simpa [eraseKey, h1] using ih
    · simp only [eraseKey, if_neg h1, List.map_cons, List.mem_cons]
      rintro (h | h)
      · exact h1 h.symm
      · exact ih h

theorem nodup_keys_eraseKey (m : List (K × A)) (k : K)
    (h : (m.map Prod.fst).Nodup) : ((eraseKey m k).map Prod.fst).Nodup := by
  induction m with
  | nil => simp [eraseKey]
  | cons p rest ih =>
    obtain ⟨k', a⟩ := p
    simp only [List.map_cons, List.nodup_cons] at h
    by_cases h1 : k' = k
    · simpa [eraseKey, h1] using ih h.2
    · simp only [eraseKey, if_neg h1, List.map_cons, List.nodup_cons]
      exact ⟨fun hc => h.1 (mem_keys_of_mem_keys_eraseKey rest k k' hc), ih h.2⟩

theorem nodup_keys_insertPair (m : List (K × A)) (k : K) (a : A)
    (h : (m.map Prod.fst).Nodup) : ((insertPair m k a).map Prod.fst).Nodup := by
  simp only [insertPair, List.map_cons, List.nodup_cons]
  exact ⟨not_mem_keys_eraseKey m k, nodup_keys_eraseKey m k h⟩

theorem eraseKey_of_not_mem (m : List (K × A)) (k : K)
    (h : k ∉ m.map Prod.fst) : eraseKey m k = m := by
  induction m with
  | nil => rfl
  | cons p rest ih =>
    obtain ⟨k', a⟩ := p
    simp only [List.map_cons, List.mem_cons] at h
    push_neg at h
    rw [eraseKey, if_neg (fun hc => h.1 hc.symm), ih h.2]

theorem length_eraseKey_of_mem (m : List (K × A)) (k : K)
    (hnd : (m.map Prod.fst).Nodup) (h : k ∈ m.map Prod.fst) :
    (eraseKey m k).length + 1 = m.length := by
  induction m with
  | nil => simp at h
  | cons p rest ih =>
    obtain ⟨k', a⟩ := p
    simp only [List.map_cons, List.nodup_cons] at hnd
    by_cases hp : k' = k
    · have hk : k ∉ rest.map Prod.fst := hp ▸ hnd.1
      simp [eraseKey, hp, eraseKey_of_not_mem rest k hk]
    · simp only [List.map_cons, List.mem_cons] at h
      rcases h with h | h
      · exact absurd h.symm hp
      · have := ih hnd.2 h
        simp only [eraseKey, if_neg hp, List.length_cons]
        omega


end AssocMap

/-! ## `src/disk_free.rs` — `PositionLength` and `DiskFree` -/

/-- `PositionLength { position: u64, length: u64 }` (disk_free.rs:4-7). -/
structure PositionLength where
  position : Nat
  length : Nat
deriving DecidableEq, Repr

/-- `PositionLength::end` (disk_free.rs:22-24); `end` is a Lean keyword. -/
def PositionLength.endPos (pl : PositionLength) : Nat :=
  pl.position + pl.length

/-- `DiskFree { parts: Vec<PositionLength> }` (disk_free.rs:27-30). -/
structure DiskFree where
  parts : List PositionLength
deriving DecidableEq, Repr

/-- `DiskFree::new` (disk_free.rs:33-35). -/
def DiskFree.new : DiskFree := ⟨[]⟩

/-- The insertion index computed in the `(None, None)` arm of `DiskFree::add`
(disk_free.rs:69-76): one past the last index whose part's position is below
`pos`, or `0` when there is none. -/
def insertIdxFor : List PositionLength → Nat → Nat
  | [], _ => 0
  | pl :: rest, pos =>
      let r := insertIdxFor rest pos
      if r = 0 then (if pl.position < pos then 1 else 0) else r + 1

/-- `DiskFree::add` (disk_free.rs:37-80): insert a freed range, coalescing with
an adjacent before-neighbor and/or after-neighbor. Index accesses through
`getD` are always in bounds because the indices come from `findIdx?`. -/
def DiskFree.add (df : DiskFree) (new_pl : PositionLength) : DiskFree :=
  let new_end := new_pl.position + new_pl.length
  let before_idx := df.parts.findIdx? (fun pl => pl.endPos = new_pl.position)
  let after_idx := df.parts.findIdx? (fun pl => pl.position = new_end)
  match before_idx, after_idx with
  | some b, some a =>
      let after_end := (df.parts.getD a ⟨0, 0⟩).endPos
      let bpl := df.parts.getD b ⟨0, 0⟩
      ⟨(df.parts.set b ⟨bpl.position, after_end - bpl.position⟩).eraseIdx a⟩
  | some b, none =>
      let bpl := df.parts.getD b ⟨0, 0⟩
      ⟨df.parts.set b ⟨bpl.position, bpl.length + new_pl.length⟩⟩
  | none, some a =>
      let apl := df.parts.getD a ⟨0, 0⟩
      ⟨df.parts.set a ⟨new_pl.position, apl.length + new_pl.length⟩⟩
  | none, none =>
      ⟨df.parts.insertIdx (insertIdxFor df.parts new_pl.position) new_pl⟩

/-- First pass of `DiskFree::find_free` (disk_free.rs:83-88): find the first
part with `length == size`, return its position and the list with that part
removed. -/
def exactPass : List PositionLength → Nat → Option (Nat × List PositionLength)
  | [], _ => none
  | pl :: rest, size =>
      if pl.length = size then some (pl.position, rest)
      else
        match exactPass rest size with
        | some (pos, l) => some (pos, pl :: l)
        | none => none

/-- Second pass of `DiskFree::find_free` (disk_free.rs:90-98): first part with
`length >= size`; return its position and shrink it from the front. -/
def firstFitPass : List PositionLength → Nat → Option (Nat × List PositionLength)
  | [], _ => none
  | pl :: rest, size =>
      if size ≤ pl.length then
        some (pl.position, ⟨pl.position + size, pl.length - size⟩ :: rest)
      else
        match firstFitPass rest size with
        | some (pos, l) => some (pos, pl :: l)
        | none => none

/-- `DiskFree::find_free` (disk_free.rs:82-100), returning the result together
with the mutated allocator. -/
def DiskFree.find_free (df : DiskFree) (size : Nat) : Option Nat × DiskFree :=
  match exactPass df.parts size with
  | some (pos, parts) => (some pos, ⟨parts⟩)
  | none =>
      match firstFitPass df.parts size with
      | some (pos, parts) => (some pos, ⟨parts⟩)
      | none => (none, df)

/-! ## Byte-file model (`std::fs::File` inside `Arc<Mutex<_>>`)

The temp file is a byte list; the mutex's poisoned state is a flag.
`seek(Start p)` + `read_exact(buf of n)` succeeds iff `n` bytes are available
from offset `p`; `seek(Start p)` + `write_all(bytes)` overwrites from `p`,
zero-filling any gap beyond the current end of file. -/

structure FileSt where
  poisoned : Bool
  data : List Nat
deriving DecidableEq, Repr

/-- `seek(SeekFrom::Start(start))` then `read_exact` of a `len`-byte buffer. -/
def read_exact (data : List Nat) (start len : Nat) : Option (List Nat) :=
  if len ≤ data.length - start then some ((data.drop start).take len) else none

/-- `seek(SeekFrom::Start(pos))` then `write_all(bytes)`. -/
def write_at (data : List Nat) (pos : Nat) (bytes : List Nat) : List Nat :=
  data.take pos ++ List.replicate (pos - data.length) 0 ++ bytes
    ++ data.drop (pos + bytes.length)

/-- Abstract model of the `serde_json` string-encoding of a value, as a byte
encoding. The repository relies on `serde_json::to_string`/`from_str`; the
only property used by the spec is that decode inverts encode. -/
structure Codec (V : Type) where
  encode : V → List Nat
  decode : List Nat → Option V

/-! ## `src/file_hash.rs` — `FileHash` -/

/-- `MAX_MEM_ENTRIES` (file_hash.rs:17). -/
def MAX_MEM_ENTRIES : Nat := 5

/-- `FileHash` (file_hash.rs:19-28). `id2pos` and `in_memory` are the two
`HashMap`s (as association lists), `file_handle` the optional shared temp
file, `disk_free` the `Vec<(u64, u64)>` free list. -/
structure FileHash (K V : Type) where
  id2pos : List (K × Nat × Nat)
  file_handle : Option FileSt
  in_memory : List (K × V)
  disk_free : List (Nat × Nat)
  max_mem_entries : Nat
  using_disk : Bool

variable {K V : Type} [DecidableEq K]

/-- `FileHash::new` (file_hash.rs:35-45). -/
def FileHash.new : FileHash K V :=
  { id2pos := [], file_handle := none, in_memory := [], disk_free := []
    max_mem_entries := MAX_MEM_ENTRIES, using_disk := false }

/-- `FileHash::len` (file_hash.rs:47-49). -/
def FileHash.len (s : FileHash K V) : Nat :=
  s.in_memory.length + s.id2pos.length

/-- `FileHash::is_empty` (file_hash.rs:51-53). -/
def FileHash.is_empty (s : FileHash K V) : Bool :=
  s.in_memory.isEmpty && s.id2pos.isEmpty

/-- The loop of `FileHash::get_file_pos_to_write` (file_hash.rs:157-170):
first entry `(start, len)` of `disk_free` with `len >= size` is taken —
removed entirely on an exact match, otherwise shrunk from the front —
and its start returned. `none` when no entry is large enough. -/
def filePosGo : List (Nat × Nat) → Nat → Option (Nat × List (Nat × Nat))
  | [], _ => none
  | (start, len) :: rest, size =>
      if size ≤ len then
        if len = size then some (start, rest)
        else some (start, (start + size, len - size) :: rest)
      else
        match filePosGo rest size with
        | some (pos, l) => some (pos, (start, len) :: l)
        | none => none

/-- `FileHash::get_file_pos_to_write` (file_hash.rs:155-172): default to the
current file length (append at end) unless a free-list entry fits. -/
def get_file_pos_to_write (fileLen : Nat) (free : List (Nat × Nat)) (size : Nat) :
    Nat × List (Nat × Nat) :=
  match filePosGo free size with
  | some (pos, free') => (pos, free')
  | none => (fileLen, free)

/-- `FileHash::release_storage` (file_hash.rs:175-179): move the key's
`(start, len)` entry, if any, from `id2pos` onto the end of `disk_free`. -/
def FileHash.release_storage (s : FileHash K V) (k : K) : FileHash K V :=
  match lookup s.id2pos k with
  | some pl => { s with id2pos := eraseKey s.id2pos k, disk_free := s.disk_free ++ [pl] }
  | none => s

/-- `FileHash::insert_disk` (file_hash.rs:181-194), with
`get_or_create_file_handle` (file_hash.rs:263-275) inlined as `getD` of a
fresh empty file. A poisoned lock is an error; otherwise release the key's
old extent, encode, choose a write position, write, and record the new
`(position, size)`. -/
def FileHash.insert_disk (c : Codec V) (s : FileHash K V) (k : K) (v : V) :
    Except String (FileHash K V) :=
  let fh := s.file_handle.getD { poisoned := false, data := [] }
  if fh.poisoned then .error "PoisonError"
  else
    let s1 := FileHash.release_storage { s with file_handle := some fh } k
    let bytes := c.encode v
    let size := bytes.length
    let pf := get_file_pos_to_write fh.data.length s1.disk_free size
    .ok { s1 with
          file_handle := some { poisoned := false, data := write_at fh.data pf.1 bytes }
          disk_free := pf.2
          id2pos := insertPair s1.id2pos k (pf.1, size) }

/-- The loop of `FileHash::flush_mem_to_disk` (file_hash.rs:200-207): insert
each in-memory key's value disk-side; a missing key is the
`anyhow!("Key not found")` error. -/
def FileHash.flushKeys (c : Codec V) : FileHash K V → List K → Except String (FileHash K V)
  | s, [] => .ok s
  | s, k :: rest =>
      match lookup s.in_memory k with
      | none => .error "Key not found"
      | some v =>
          match FileHash.insert_disk c s k v with
          | .error e => .error e
          | .ok s' => FileHash.flushKeys c s' rest

/-- `FileHash::flush_mem_to_disk` (file_hash.rs:199-211). -/
def FileHash.flush_mem_to_disk (c : Codec V) (s : FileHash K V) :
    Except String (FileHash K V) :=
  match FileHash.flushKeys c s (s.in_memory.map Prod.fst) with
  | .error e => .error e
  | .ok s' => .ok { s' with in_memory := [], using_disk := true }

/-- `FileHash::insert_mem` (file_hash.rs:144-152). -/
def FileHash.insert_mem (c : Codec V) (s : FileHash K V) (k : K) (v : V) :
    Except String (FileHash K V) :=
  if s.max_mem_entries ≤ s.in_memory.length then
    match FileHash.flush_mem_to_disk c s with
    | .error e => .error e
    | .ok s' => FileHash.insert_disk c s' k v
  else
    .ok { s with in_memory := insertPair s.in_memory k v }

/-- `FileHash::insert` (file_hash.rs:134-142). -/
def FileHash.insert (c : Codec V) (s : FileHash K V) (k : K) (v : V) :
    Except String (FileHash K V) :=
  if s.using_disk then FileHash.insert_disk c s k v else FileHash.insert_mem c s k v

/-- `FileHash::get_disk` (file_hash.rs:230-238): every failure — no file
handle, poisoned lock, missing key, short read, decode failure — is mapped
to `None` by the `?`/`.ok()?` chain. -/
def FileHash.get_disk (c : Codec V) (s : FileHash K V) (k : K) : Option V :=
  match s.file_handle with
  | none => none
  | some fh =>
      if fh.poisoned then none
      else
        match lookup s.id2pos k with
        | none => none
        | some pl =>
            match read_exact fh.data pl.1 pl.2 with
            | none => none
            | some buffer => c.decode buffer

/-- `FileHash::get` (file_hash.rs:221-228). -/
def FileHash.get (c : Codec V) (s : FileHash K V) (k : K) : Option V :=
  if s.using_disk then FileHash.get_disk c s k else lookup s.in_memory k

/-- `FileHash::contains` (file_hash.rs:213-219). -/
def FileHash.contains (s : FileHash K V) (k : K) : Bool :=
  if s.using_disk then (lookup s.id2pos k).isSome else (lookup s.in_memory k).isSome

/-- `FileHash::keys` (file_hash.rs:240-246). -/
def FileHash.keys (s : FileHash K V) : List K :=
  if s.using_disk then s.id2pos.map Prod.fst else s.in_memory.map Prod.fst

/-- `FileHash::remove` (file_hash.rs:67-78): disk-backed, the prior value is
read via `get` and the `id2pos` entry dropped when the read succeeded; the
freed extent is not touched. In-memory, a plain `HashMap::remove`. -/
def FileHash.remove (c : Codec V) (s : FileHash K V) (k : K) :
    Option V × FileHash K V :=
  if s.using_disk then
    let value := FileHash.get c s k
    if value.isSome then (value, { s with id2pos := eraseKey s.id2pos k }) else (value, s)
  else
    (lookup s.in_memory k, { s with in_memory := eraseKey s.in_memory k })

/-- The common body of `FileHash::swap_mem` (file_hash.rs:93-110) and
`FileHash::swap_disk` (file_hash.rs:112-129), which are identical up to the
`HashMap` they act on: remove both keys (`remove` of `idx2` acts on the map
after `idx1` was removed), then re-insert according to which values were
present. -/
def swapPairs {A : Type} (m : List (K × A)) (idx1 idx2 : K) : List (K × A) :=
  let v1 := lookup m idx1
  let m1 := eraseKey m idx1
  let v2 := lookup m1 idx2
  let m2 := eraseKey m1 idx2
  match v1, v2 with
  | some value, none => insertPair m2 idx2 value
  | none, some value => insertPair m2 idx1 value
  | some x1, some x2 => insertPair (insertPair m2 idx1 x2) idx2 x1
  | none, none => m2

/-- `FileHash::swap_mem` (file_hash.rs:93-110). -/
def FileHash.swap_mem (s : FileHash K V) (idx1 idx2 : K) : FileHash K V :=
  { s with in_memory := swapPairs s.in_memory idx1 idx2 }

/-- `FileHash::swap_disk` (file_hash.rs:112-129). -/
def FileHash.swap_disk (s : FileHash K V) (idx1 idx2 : K) : FileHash K V :=
  { s with id2pos := swapPairs s.id2pos idx1 idx2 }

/-- `FileHash::swap` (file_hash.rs:80-91). -/
def FileHash.swap (s : FileHash K V) (idx1 idx2 : K) : FileHash K V :=
  if idx1 = idx2 then s
  else if s.using_disk then FileHash.swap_disk s idx1 idx2
  else FileHash.swap_mem s idx1 idx2

/-- `FileHash::clear` (file_hash.rs:55-65): both maps are cleared, then the
file (if present) is truncated under the lock; a poisoned lock errors after
the maps were already cleared. `disk_free`, `using_disk` and the threshold
are untouched. -/
def FileHash.clear (s : FileHash K V) : Except String (FileHash K V) :=
  let s1 : FileHash K V := { s with id2pos := [], in_memory := [] }
  match s1.file_handle with
  | none => .ok s1
  | some fh =>
      if fh.poisoned then .error "Poisoned file handle in FileHash"
      else .ok { s1 with file_handle := some { poisoned := false, data := [] } }

/-- `FileHash::set_max_mem_entries` (file_hash.rs:277-279): records the new
threshold and nothing else. -/
def FileHash.set_max_mem_entries (s : FileHash K V) (n : Nat) : FileHash K V :=
  { s with max_mem_entries := n }

/-- The loop of `FileHash::retain` (file_hash.rs:248-261) over the snapshot
of `keys()`. -/
def FileHash.retainGo (c : Codec V) (f : K → V → Bool) :
    FileHash K V → List K → FileHash K V
  | s, [] => s
  | s, k :: rest =>
      match FileHash.get c s k with
      | none => FileHash.retainGo c f s rest
      | some v =>
          if f k v then FileHash.retainGo c f s rest
          else FileHash.retainGo c f (FileHash.remove c s k).2 rest

/-- `FileHash::retain` (file_hash.rs:248-261). -/
def FileHash.retain (c : Codec V) (f : K → V → Bool) (s : FileHash K V) : FileHash K V :=
  FileHash.retainGo c f s (FileHash.keys s)

/-! ## `src/file_vec.rs` — `FileVec` -/

/-- `FileVec` (file_vec.rs:7-11): a `FileHash<usize, V>` plus a length. -/
structure FileVec (V : Type) where
  file_hash : FileHash Nat V
  len : Nat

/-- `FileVec::new` (file_vec.rs:14-19). -/
def FileVec.new : FileVec V := ⟨FileHash.new, 0⟩

/-- `FileVec::push` (file_vec.rs:21-26); the `.expect` panic on a failed
insert is the error case. -/
def FileVec.push (c : Codec V) (fv : FileVec V) (row : V) : Except String (FileVec V) :=
  match FileHash.insert c fv.file_hash fv.len row with
  | .error e => .error e
  | .ok fh => .ok { file_hash := fh, len := fv.len + 1 }

/-- `FileVec::get` (file_vec.rs:28-30). -/
def FileVec.get (c : Codec V) (fv : FileVec V) (pos : Nat) : Option V :=
  FileHash.get c fv.file_hash pos

/-- `FileVec::swap` (file_vec.rs:115-124): bounds-checked delegation to
`FileHash::swap`. -/
def FileVec.swap (fv : FileVec V) (idx1 idx2 : Nat) : Except String (FileVec V) :=
  if fv.len ≤ idx1 ∨ fv.len ≤ idx2 then
    .error "Attempting to swap out-of-bounds"
  else
    .ok { fv with file_hash := FileHash.swap fv.file_hash idx1 idx2 }

/-- `usize` wrap-around modulus. -/
def USIZE_MOD : Nat := 2 ^ 64

/-- The `while front < end` loop of `FileVec::reverse` (file_vec.rs:129-133),
structurally recursive on `end`. -/
def FileVec.revLoop : FileVec V → Nat → Nat → Except String (FileVec V)
  | fv, _, 0 => .ok fv
  | fv, front, e + 1 =>
      if front < e + 1 then
        match FileVec.swap fv front (e + 1) with
        | .error msg => .error msg
        | .ok fv' => FileVec.revLoop fv' (front + 1) e
      else .ok fv

/-- `FileVec::reverse` (file_vec.rs:126-135). The source computes
`self.len - 1` on a `usize`: for `len = 0` this underflows — a panic in a
debug build, wrap-around to `usize::MAX` in release. The model takes the
release-mode wrap `(len + 2^64 - 1) % 2^64`; in both builds the empty case
does not return `Ok`. -/
def FileVec.reverse (fv : FileVec V) : Except String (FileVec V) :=
  FileVec.revLoop fv 0 ((fv.len + (USIZE_MOD - 1)) % USIZE_MOD)

/-! ## Drivers and reachability -/

/-- Insert a list of key-value pairs in order via `FileHash::insert`,
stopping at the first error (the test-scenario driver). -/
def insertAll (c : Codec V) : FileHash K V → List (K × V) → Except String (FileHash K V)
  | s, [] => .ok s
  | s, (k, v) :: rest =>
      match FileHash.insert c s k v with
      | .error e => .error e
      | .ok s' => insertAll c s' rest

/-- Release every range of a list into a `DiskFree` allocator, oldest first. -/
def releaseAll (rs : List PositionLength) : DiskFree :=
  rs.foldl DiskFree.add DiskFree.new

/-- States of a `FileHash` reachable from `FileHash::new` through public
operations that return successfully. Fallible operations contribute their
`Ok` transition (for `clear` also the mutation left behind by its error
path, since the maps are cleared before the lock is taken). States left
behind by a failed `insert` — a write failure can abort
`flush_mem_to_disk` mid-loop, see `ReachableE` below — are deliberately
not included here. -/
inductive Reachable (c : Codec V) : FileHash K V → Prop
  | new : Reachable c FileHash.new
  | insert (s s' : FileHash K V) (k : K) (v : V) :
      Reachable c s → FileHash.insert c s k v = .ok s' → Reachable c s'
  | remove (s : FileHash K V) (k : K) :
      Reachable c s → Reachable c (FileHash.remove c s k).2
  | swap (s : FileHash K V) (i j : K) :
      Reachable c s → Reachable c (FileHash.swap s i j)
  | clear (s : FileHash K V) :
      Reachable c s → Reachable c { s with id2pos := [], in_memory := [] }
  | clear_ok (s s' : FileHash K V) :
      Reachable c s → FileHash.clear s = .ok s' → Reachable c s'
  | set_max (s : FileHash K V) (n : Nat) :
      Reachable c s → Reachable c (FileHash.set_max_mem_entries s n)
  | retain (s : FileHash K V) (f : K → V → Bool) :
      Reachable c s → Reachable c (FileHash.retain c f s)

/-! ## The fallible write (file_hash.rs:191)

`write_all` returns `io::Result`: the device can refuse the write (disk
full), and the `?` operators at file_hash.rs:191 and 206 propagate the
failure out of `insert_disk`, `flush_mem_to_disk` and `insert` after the
mutations already performed on `&mut self`. The operations below are the
same functions with the write allowed to fail: `cap` is the space the
device grants the temp file, a write past it fails, and every operation
returns the mutated store alongside the outcome, which is what the caller
holds afterwards. -/

/-- `seek(SeekFrom::Start(pos))` then `write_all(bytes)` on a device with
`cap` bytes of space for the file: the write fails (`ENOSPC`) when it
would end past `cap`, and otherwise succeeds with the effect of
`write_at`. -/
def write_atE (cap : Nat) (data : List Nat) (pos : Nat) (bytes : List Nat) :
    Except String (List Nat) :=
  if pos + bytes.length ≤ cap then .ok (write_at data pos bytes)
  else .error "No space left on device"

/-- `FileHash::insert_disk` (file_hash.rs:181-194) with the write fallible:
a failed write returns the error but keeps the mutations made before line
191 — the created file handle (line 182), `release_storage` (line 184) and
the free-list update of `get_file_pos_to_write` (line 189); the `id2pos`
insertion (line 192) is not reached. -/
def FileHash.insert_diskE (cap : Nat) (c : Codec V) (s : FileHash K V) (k : K)
    (v : V) : FileHash K V × Option String :=
  let fh := s.file_handle.getD { poisoned := false, data := [] }
  if fh.poisoned then ({ s with file_handle := some fh }, some "PoisonError")
  else
    let s1 := FileHash.release_storage { s with file_handle := some fh } k
    let bytes := c.encode v
    let size := bytes.length
    let pf := get_file_pos_to_write fh.data.length s1.disk_free size
    match write_atE cap fh.data pf.1 bytes with
    | .error e => ({ s1 with disk_free := pf.2 }, some e)
    | .ok data2 =>
        ({ s1 with
           file_handle := some { poisoned := false, data := data2 }
           disk_free := pf.2
           id2pos := insertPair s1.id2pos k (pf.1, size) }, none)

/-- The loop of `FileHash::flush_mem_to_disk` (file_hash.rs:200-207) with
the write fallible: the `?` at line 206 aborts the loop at the first
failed `insert_disk`, keeping the keys already flushed in `id2pos`. -/
def FileHash.flushKeysE (cap : Nat) (c : Codec V) :
    FileHash K V → List K → FileHash K V × Option String
  | s, [] => (s, none)
  | s, k :: rest =>
      match lookup s.in_memory k with
      | none => (s, some "Key not found")
      | some v =>
          match FileHash.insert_diskE cap c s k v with
          | (s2, some e) => (s2, some e)
          | (s2, none) => FileHash.flushKeysE cap c s2 rest

/-- `FileHash::flush_mem_to_disk` (file_hash.rs:199-211) with the write
fallible: on an abort the cache is not cleared and `using_disk` stays
`false` — lines 208-209 are not reached. -/
def FileHash.flush_mem_to_diskE (cap : Nat) (c : Codec V) (s : FileHash K V) :
    FileHash K V × Option String :=
  match FileHash.flushKeysE cap c s (s.in_memory.map Prod.fst) with
  | (s2, some e) => (s2, some e)
  | (s2, none) => ({ s2 with in_memory := [], using_disk := true }, none)

/-- `FileHash::insert_mem` (file_hash.rs:144-152) with the write fallible. -/
def FileHash.insert_memE (cap : Nat) (c : Codec V) (s : FileHash K V) (k : K)
    (v : V) : FileHash K V × Option String :=
  if s.max_mem_entries ≤ s.in_memory.length then
    match FileHash.flush_mem_to_diskE cap c s with
    | (s2, some e) => (s2, some e)
    | (s2, none) => FileHash.insert_diskE cap c s2 k v
  else
    ({ s with in_memory := insertPair s.in_memory k v }, none)

/-- `FileHash::insert` (file_hash.rs:134-142) with the write fallible. -/
def FileHash.insertE (cap : Nat) (c : Codec V) (s : FileHash K V) (k : K)
    (v : V) : FileHash K V × Option String :=
  if s.using_disk then FileHash.insert_diskE cap c s k v
  else FileHash.insert_memE cap c s k v

/-- States reachable from a fresh store on a device granting the temp file
`cap` bytes, through the public operations — keeping, for `insert`, the
state the call leaves behind whether it returns `Ok` or `Err`, since the
caller retains the store either way. The remaining operations perform no
file writes, so they are the operations above; `clear`, whose only failure
is the poisoned lock, contributes both its `Ok` state and its error-path
mutation. -/
inductive ReachableE (cap : Nat) (c : Codec V) : FileHash K V → Prop
  | new : ReachableE cap c FileHash.new
  | insert (s : FileHash K V) (k : K) (v : V) :
      ReachableE cap c s → ReachableE cap c (FileHash.insertE cap c s k v).1
  | remove (s : FileHash K V) (k : K) :
      ReachableE cap c s → ReachableE cap c (FileHash.remove c s k).2
  | swap (s : FileHash K V) (i j : K) :
      ReachableE cap c s → ReachableE cap c (FileHash.swap s i j)
  | clear (s : FileHash K V) :
      ReachableE cap c s → ReachableE cap c { s with id2pos := [], in_memory := [] }
  | clear_ok (s s2 : FileHash K V) :
      ReachableE cap c s → FileHash.clear s = .ok s2 → ReachableE cap c s2
  | set_max (s : FileHash K V) (n : Nat) :
      ReachableE cap c s → ReachableE cap c (FileHash.set_max_mem_entries s n)
  | retain (s : FileHash K V) (f : K → V → Bool) :
      ReachableE cap c s → ReachableE cap c (FileHash.retain c f s)

/-! ## Specification predicates (from spec.md §3, §4.1) -/

/-- Ascending separation of two extents: the first ends strictly before the
second starts — non-overlapping and non-adjacent. -/
def PositionLength.Sep (p q : PositionLength) : Prop :=
  p.endPos < q.position

/-- The allocator invariant of spec.md §3: the live extents are in ascending
order, pairwise non-overlapping and non-adjacent, and nonempty. -/
def DiskFree.Separated (df : DiskFree) : Prop :=
  df.parts.Pairwise PositionLength.Sep ∧ ∀ p ∈ df.parts, 0 < p.length

/-- Byte `x` lies in the half-open range of `pl`. -/
def PositionLength.inRange (pl : PositionLength) (x : Nat) : Prop :=
  pl.position ≤ x ∧ x < pl.endPos

/-- Some free extent of `df` covers byte `x`. -/
def DiskFree.covers (df : DiskFree) (x : Nat) : Prop :=
  ∃ pl ∈ df.parts, pl.inRange x

/-- Interval disjointness of two ranges, adjacency allowed. -/
def PositionLength.RDisj (p q : PositionLength) : Prop :=
  p.endPos ≤ q.position ∨ q.endPos ≤ p.position

instance (p q : PositionLength) : Decidable (p.RDisj q) := by
  unfold PositionLength.RDisj; infer_instance

instance (df : DiskFree) : Decidable df.Separated := by
  unfold DiskFree.Separated PositionLength.Sep; infer_instance

/-- The tiering invariant of the store (spec.md §3): the cache and index are
never both populated, and neither holds a key twice. -/
def TieredInv {K V : Type} (s : FileHash K V) : Prop :=
  (s.using_disk = false → s.id2pos = []) ∧
  (s.using_disk = true → s.in_memory = []) ∧
  (s.in_memory.map Prod.fst).Nodup ∧
  (s.id2pos.map Prod.fst).Nodup

/-! ## Concrete instances used by witnesses -/

/-- A concrete codec on `Nat` values: the singleton byte list. Decode inverts
encode, as `serde_json` does on strings. -/
def natCodec : Codec Nat where
  encode := fun v => [v]
  decode := fun l => match l with
    | [v] => some v
    | _ => none

/-! # Theorems

## Byte-file lemmas -/

theorem write_at_eq (data : List Nat) (pos : Nat) (bytes : List Nat) :
    write_at data pos bytes
      = (data.take pos ++ List.replicate (pos - data.length) 0)
        ++ (bytes ++ data.drop (pos + bytes.length)) := by
  simp [write_at]

theorem length_write_front (data : List Nat) (pos : Nat) :
    (data.take pos ++ List.replicate (pos - data.length) 0).length = pos := by
  simp only [List.length_append, List.length_take, List.length_replicate]
  omega

theorem drop_write_at (data : List Nat) (pos : Nat) (bytes : List Nat) :
    (write_at data pos bytes).drop pos = bytes ++ data.drop (pos + bytes.length) := by
  have key : ∀ pre rest : List Nat, pre.length = pos → (pre ++ rest).drop pos = rest := by
    intro pre rest hl
    rw [← hl]
    exact List.drop_left _ _
  rw [write_at_eq]
  exact key _ _ (length_write_front data pos)

theorem length_write_at (data : List Nat) (pos : Nat) (bytes : List Nat) :
    (write_at data pos bytes).length
      = pos + bytes.length + (data.length - (pos + bytes.length)) := by
  rw [write_at_eq]
  simp only [List.length_append, List.length_take, List.length_replicate, List.length_drop]
  omega

theorem read_exact_write_at_self (data : List Nat) (pos : Nat) (bytes : List Nat) :
    read_exact (write_at data pos bytes) pos bytes.length = some bytes := by
  rw [read_exact, if_pos, drop_write_at, List.take_left]
  rw [length_write_at]
  omega

theorem read_exact_append (data ext : List Nat) (p l : Nat) (h : p + l ≤ data.length) :
    read_exact (data ++ ext) p l = read_exact data p l := by
  have h1 : l ≤ (data ++ ext).length - p := by
    rw [List.length_append]
    omega
  have h2 : l ≤ data.length - p := by omega
  rw [read_exact, read_exact, if_pos h1, if_pos h2]
  rw [List.drop_append_of_le_length (by omega)]
  rw [List.take_append_of_le_length (by rw [List.length_drop]; omega)]

theorem write_at_at_end (data bytes : List Nat) :
    write_at data data.length bytes = data ++ bytes := by
  simp [write_at, List.drop_eq_nil_of_le (by omega : data.length ≤ data.length + bytes.length)]

/-! ## `insert_disk` lemmas -/

variable {K V : Type} [DecidableEq K]

theorem release_storage_in_memory (s : FileHash K V) (k : K) :
    (FileHash.release_storage s k).in_memory = s.in_memory := by
  unfold FileHash.release_storage
  cases lookup s.id2pos k <;> rfl

theorem release_storage_using_disk (s : FileHash K V) (k : K) :
    (FileHash.release_storage s k).using_disk = s.using_disk := by
  unfold FileHash.release_storage
  cases lookup s.id2pos k <;> rfl

theorem release_storage_max (s : FileHash K V) (k : K) :
    (FileHash.release_storage s k).max_mem_entries = s.max_mem_entries := by
  unfold FileHash.release_storage
  cases lookup s.id2pos k <;> rfl

theorem release_storage_file_handle (s : FileHash K V) (k : K) :
    (FileHash.release_storage s k).file_handle = s.file_handle := by
  unfold FileHash.release_storage
  cases lookup s.id2pos k <;> rfl

theorem release_storage_of_lookup_none (s : FileHash K V) (k : K)
    (h : lookup s.id2pos k = none) : FileHash.release_storage s k = s := by
  unfold FileHash.release_storage
  rw [h]

/-- Elimination form of a successful `insert_disk`: the lock was not
poisoned, and the result state is the explicit record computed by the
body. -/
theorem insert_disk_ok_elim (c : Codec V) (s : FileHash K V) (k : K) (v : V)
    (s' : FileHash K V) (h : FileHash.insert_disk c s k v = .ok s') :
    (s.file_handle.getD ⟨false, []⟩).poisoned = false ∧
    s' = (let fh := s.file_handle.getD ⟨false, []⟩
          let s1 := FileHash.release_storage { s with file_handle := some fh } k
          let bytes := c.encode v
          let pf := get_file_pos_to_write fh.data.length s1.disk_free bytes.length
          { s1 with
            file_handle := some { poisoned := false, data := write_at fh.data pf.1 bytes }
            disk_free := pf.2
            id2pos := insertPair s1.id2pos k (pf.1, bytes.length) }) := by
  unfold FileHash.insert_disk at h
  cases hp : (s.file_handle.getD ⟨false, []⟩).poisoned with
  | true => simp [hp] at h
  | false =>
      simp only [hp, Bool.false_eq_true, if_false, Except.ok.injEq] at h
      exact ⟨rfl, h.symm⟩

theorem insert_disk_get_self (c : Codec V) (s : FileHash K V) (k : K) (v : V)
    (s' : FileHash K V) (hok : FileHash.insert_disk c s k v = .ok s')
    (hcodec : c.decode (c.encode v) = some v) :
    FileHash.get_disk c s' k = some v := by
  obtain ⟨hp, rfl⟩ := insert_disk_ok_elim c s k v s' hok
  simp only [FileHash.get_disk, lookup_insertPair_self, read_exact_write_at_self, hcodec]
  rfl

theorem insert_disk_using_disk (c : Codec V) (s : FileHash K V) (k : K) (v : V)
    (s' : FileHash K V) (hok : FileHash.insert_disk c s k v = .ok s') :
    s'.using_disk = s.using_disk := by
  obtain ⟨hp, rfl⟩ := insert_disk_ok_elim c s k v s' hok
  simp only [release_storage_using_disk]

theorem insert_disk_in_memory (c : Codec V) (s : FileHash K V) (k : K) (v : V)
    (s' : FileHash K V) (hok : FileHash.insert_disk c s k v = .ok s') :
    s'.in_memory = s.in_memory := by
  obtain ⟨hp, rfl⟩ := insert_disk_ok_elim c s k v s' hok
  simp only [release_storage_in_memory]

theorem insert_disk_max (c : Codec V) (s : FileHash K V) (k : K) (v : V)
    (s' : FileHash K V) (hok : FileHash.insert_disk c s k v = .ok s') :
    s'.max_mem_entries = s.max_mem_entries := by
  obtain ⟨hp, rfl⟩ := insert_disk_ok_elim c s k v s' hok
  simp only [release_storage_max]

theorem flush_ok_fields (c : Codec V) (s t : FileHash K V)
    (h : FileHash.flush_mem_to_disk c s = .ok t) :
    t.using_disk = true ∧ t.in_memory = [] := by
  unfold FileHash.flush_mem_to_disk at h
  cases hf : FileHash.flushKeys c s (s.in_memory.map Prod.fst) with
  | error e => rw [hf] at h; exact absurd h (by simp)
  | ok u =>
      rw [hf] at h
      simp only [Except.ok.injEq] at h
      rw [← h]
      exact ⟨rfl, rfl⟩

/-! ## C1 — round trip -/

/-- C1: for every store state and every value whose encoding decodes back to
itself, a successful `insert(k, v)` followed by `get(k)` returns `Some v`,
in both the in-memory and the disk-backed mode (including an insert that
triggers the flush transition). -/
theorem FileHash.insert_get_roundtrip (c : Codec V) (s : FileHash K V) (k : K) (v : V)
    (s' : FileHash K V)
    (hcodec : c.decode (c.encode v) = some v)
    (hok : FileHash.insert c s k v = .ok s') :
    FileHash.get c s' k = some v := by
  unfold FileHash.insert at hok
  cases hud : s.using_disk with
  | true =>
      rw [hud, if_pos rfl] at hok
      have hu := insert_disk_using_disk c s k v s' hok
      rw [FileHash.get, if_pos (by rw [hu, hud])]
      exact insert_disk_get_self c s k v s' hok hcodec
  | false =>
      rw [hud, if_neg (by simp)] at hok
      unfold FileHash.insert_mem at hok
      by_cases hth : s.max_mem_entries ≤ s.in_memory.length
      · rw [if_pos hth] at hok
        cases hf : FileHash.flush_mem_to_disk c s with
        | error e => rw [hf] at hok; exact absurd hok (by simp)
        | ok s1 =>
            rw [hf] at hok
            have hu1 := (flush_ok_fields c s s1 hf).1
            have hu := insert_disk_using_disk c s1 k v s' hok
            rw [FileHash.get, if_pos (by rw [hu, hu1])]
            exact insert_disk_get_self c s1 k v s' hok hcodec
      · rw [if_neg hth] at hok
        simp only [Except.ok.injEq] at hok
        rw [← hok, FileHash.get]
        simp only [hud, Bool.false_eq_true, if_false, lookup_insertPair_self]

/-- Witness for C1 at a concrete input: inserting `7` under key `0` into a
fresh store and reading it back. -/
theorem FileHash.insert_get_roundtrip_witness :
    FileHash.get natCodec
      { id2pos := [], file_handle := none, in_memory := [(0, 7)], disk_free := []
        max_mem_entries := 5, using_disk := false } 0 = some 7 :=
  FileHash.insert_get_roundtrip natCodec FileHash.new 0 7 _ rfl rfl

/-! ## C3 — remove -/

/-- C3 counterexample: in disk-backed mode, removing a present key returns
its value and drops the index entry, but the freed `(offset, length)` region
is **not** pushed onto the `disk_free` list — the free list stays empty, so
the storage is not released to the allocator as claimed. -/
theorem FileHash.remove_disk_no_release_counterexample :
    (FileHash.remove natCodec
        { id2pos := [(7, (0, 1))], file_handle := some ⟨false, [42]⟩, in_memory := []
          disk_free := [], max_mem_entries := 5, using_disk := true } 7).1 = some 42 ∧
    (FileHash.remove natCodec
        { id2pos := [(7, (0, 1))], file_handle := some ⟨false, [42]⟩, in_memory := []
          disk_free := [], max_mem_entries := 5, using_disk := true } 7).2.id2pos = [] ∧
    (FileHash.remove natCodec
        { id2pos := [(7, (0, 1))], file_handle := some ⟨false, [42]⟩, in_memory := []
          disk_free := [], max_mem_entries := 5, using_disk := true } 7).2.disk_free = [] :=
  ⟨rfl, rfl, rfl⟩

/-- C3 (amended): `remove(k)` returns the prior value; in-memory mode the
cache entry is erased, and in disk-backed mode (when the prior value was
readable) the index entry is erased — but the key's disk region is never
handed to the free-space list, whose contents `remove` leaves unchanged in
both modes (space is only reclaimed on overwrite, inside `insert_disk`). -/
theorem FileHash.remove_spec (c : Codec V) (s : FileHash K V) (k : K) :
    (s.using_disk = false →
      FileHash.remove c s k
        = (lookup s.in_memory k, { s with in_memory := eraseKey s.in_memory k })) ∧
    (s.using_disk = true → (FileHash.get c s k).isSome →
      FileHash.remove c s k
        = (FileHash.get c s k, { s with id2pos := eraseKey s.id2pos k })) ∧
    (FileHash.remove c s k).2.disk_free = s.disk_free := by
  refine ⟨?_, ?_, ?_⟩
  · intro hud
    unfold FileHash.remove
    rw [if_neg (by rw [hud]; simp)]
  · intro hud hsome
    unfold FileHash.remove
    rw [if_pos hud]
    simp only [hsome, if_true]
  · unfold FileHash.remove
    by_cases hud : s.using_disk = true
    · rw [if_pos hud]
      by_cases hs : (FileHash.get c s k).isSome = true
      · rw [if_pos hs]
      · rw [if_neg hs]
    · rw [if_neg hud]

/-- Witness for C3 (amended) at concrete inputs, one per mode. -/
theorem FileHash.remove_spec_witness :
    FileHash.remove natCodec
        { id2pos := [], file_handle := none, in_memory := [(1, 8)], disk_free := []
          max_mem_entries := 5, using_disk := false } 1
      = (some 8,
         { id2pos := [], file_handle := none, in_memory := [], disk_free := []
           max_mem_entries := 5, using_disk := false }) ∧
    FileHash.remove natCodec
        { id2pos := [(7, (0, 1))], file_handle := some ⟨false, [42]⟩, in_memory := []
          disk_free := [(5, 3)], max_mem_entries := 5, using_disk := true } 7
      = (some 42,
         { id2pos := [], file_handle := some ⟨false, [42]⟩, in_memory := []
           disk_free := [(5, 3)], max_mem_entries := 5, using_disk := true }) := by
  constructor
  · exact (FileHash.remove_spec natCodec
      { id2pos := [], file_handle := none, in_memory := [(1, 8)], disk_free := []
        max_mem_entries := 5, using_disk := false } 1).1 rfl
  · exact (FileHash.remove_spec natCodec
      { id2pos := [(7, (0, 1))], file_handle := some ⟨false, [42]⟩, in_memory := []
        disk_free := [(5, 3)], max_mem_entries := 5, using_disk := true } 7).2.1 rfl rfl

/-! ## C4 — in-memory insert below the threshold -/

/-- C4 counterexample: with threshold 1 and the single key `5` already
cached, overwriting key `5` keeps the entry count at 1 ≤ threshold, yet the
code compares `len >= max_mem_entries` before inserting and flushes: the
store ends up disk-backed with an empty cache, not in-memory as claimed. -/
theorem FileHash.insert_overwrite_at_threshold_counterexample :
    (FileHash.insert natCodec
        { id2pos := [], file_handle := none, in_memory := [(5, 10)], disk_free := []
          max_mem_entries := 1, using_disk := false } 5 20).map
      (fun s => (s.using_disk, s.in_memory.length)) = .ok (true, 0) := rfl

/-- C4 (amended): an insert into an in-memory store stays in memory exactly
when the **current** entry count is strictly below the threshold (the code
does not account for overwrites when comparing against the threshold): the
value lands in the cache and the mode is unchanged. -/
theorem FileHash.insert_inmemory_below_threshold (c : Codec V) (s : FileHash K V)
    (k : K) (v : V)
    (hud : s.using_disk = false)
    (hcount : s.in_memory.length < s.max_mem_entries) :
    FileHash.insert c s k v = .ok { s with in_memory := insertPair s.in_memory k v } ∧
    FileHash.get c { s with in_memory := insertPair s.in_memory k v } k = some v := by
  constructor
  · unfold FileHash.insert FileHash.insert_mem
    rw [if_neg (by rw [hud]; simp), if_neg (by omega)]
  · unfold FileHash.get
    rw [if_neg (by show ¬s.using_disk = true; rw [hud]; simp)]
    exact lookup_insertPair_self _ _ _

/-- Witness for C4 (amended) on a fresh store. -/
theorem FileHash.insert_inmemory_below_threshold_witness :
    FileHash.insert natCodec (FileHash.new (K := Nat) (V := Nat)) 3 4
        = .ok { FileHash.new (K := Nat) (V := Nat) with in_memory := insertPair [] 3 4 } ∧
    FileHash.get natCodec
        { FileHash.new (K := Nat) (V := Nat) with in_memory := insertPair [] 3 4 } 3
      = some 4 :=
  FileHash.insert_inmemory_below_threshold natCodec FileHash.new 3 4 rfl (by decide)

/-! ## C5 — set_max_mem_entries -/

/-- C5 counterexample: an in-memory store with 3 entries; after
`set_max_mem_entries(1)` — count 3 exceeds the new threshold 1 — the store
is still in-memory and nothing was flushed, contradicting the claim that
the transition happens directly after the call. -/
theorem FileHash.set_max_mem_entries_no_flush_counterexample :
    (FileHash.set_max_mem_entries
        { id2pos := [], file_handle := none, in_memory := [(1, 1), (2, 2), (3, 3)]
          disk_free := [], max_mem_entries := 5, using_disk := false } 1).using_disk
      = false ∧
    (FileHash.set_max_mem_entries
        { id2pos := [], file_handle := none, in_memory := [(1, 1), (2, 2), (3, 3)]
          disk_free := [], max_mem_entries := 5, using_disk := false } 1).in_memory
      = [(1, 1), (2, 2), (3, 3)] ∧
    (FileHash.set_max_mem_entries
        { id2pos := [], file_handle := none, in_memory := [(1, 1), (2, 2), (3, 3)]
          disk_free := [], max_mem_entries := 5, using_disk := false } 1).id2pos
      = [] :=
  ⟨rfl, rfl, rfl⟩

/-- C5 (amended): `set_max_mem_entries(n)` only records the new threshold and
changes nothing else — the store stays in-memory even when its count exceeds
`n`; the flush-to-disk transition is re-evaluated only at the next `insert`,
which then flushes and leaves the store disk-backed. -/
theorem FileHash.set_max_then_insert_flushes (c : Codec V) (s s' : FileHash K V)
    (n : Nat) (k : K) (v : V)
    (hud : s.using_disk = false)
    (hexceed : n < s.in_memory.length)
    (hok : FileHash.insert c (FileHash.set_max_mem_entries s n) k v = .ok s') :
    FileHash.set_max_mem_entries s n = { s with max_mem_entries := n } ∧
    (FileHash.set_max_mem_entries s n).using_disk = false ∧
    s'.using_disk = true := by
  have hud' : (FileHash.set_max_mem_entries s n).using_disk = false := hud
  have hmax : (FileHash.set_max_mem_entries s n).max_mem_entries = n := rfl
  have hmem : (FileHash.set_max_mem_entries s n).in_memory = s.in_memory := rfl
  refine ⟨rfl, hud', ?_⟩
  unfold FileHash.insert at hok
  rw [if_neg (by rw [hud']; simp)] at hok
  unfold FileHash.insert_mem at hok
  rw [if_pos (by rw [hmax, hmem]; omega)] at hok
  cases hf : FileHash.flush_mem_to_disk c (FileHash.set_max_mem_entries s n) with
  | error e => rw [hf] at hok; exact absurd hok (by simp)
  | ok s1 =>
      rw [hf] at hok
      rw [insert_disk_using_disk c s1 k v s' hok]
      exact (flush_ok_fields c _ s1 hf).1

/-- Witness for C5 (amended) on a concrete 3-entry store with the threshold
lowered to 1 and a subsequent insert. -/
theorem FileHash.set_max_then_insert_flushes_witness :
    FileHash.set_max_mem_entries
        { id2pos := [], file_handle := none, in_memory := [(1, 1), (2, 2), (3, 3)]
          disk_free := [], max_mem_entries := 5, using_disk := false } 1
      = { id2pos := [], file_handle := none, in_memory := [(1, 1), (2, 2), (3, 3)]
          disk_free := [], max_mem_entries := 1, using_disk := false } ∧
    (FileHash.set_max_mem_entries
        { id2pos := [], file_handle := none, in_memory := [(1, 1), (2, 2), (3, 3)]
          disk_free := [], max_mem_entries := 5, using_disk := false } 1).using_disk
      = false ∧
    ({ id2pos := [(9, (3, 1)), (3, (2, 1)), (2, (1, 1)), (1, (0, 1))]
       file_handle := some ⟨false, [1, 2, 3, 9]⟩, in_memory := [], disk_free := []
       max_mem_entries := 1, using_disk := true } : FileHash Nat Nat).using_disk = true :=
  FileHash.set_max_then_insert_flushes natCodec
    { id2pos := [], file_handle := none, in_memory := [(1, 1), (2, 2), (3, 3)]
      disk_free := [], max_mem_entries := 5, using_disk := false }
    { id2pos := [(9, (3, 1)), (3, (2, 1)), (2, (1, 1)), (1, (0, 1))]
      file_handle := some ⟨false, [1, 2, 3, 9]⟩, in_memory := [], disk_free := []
      max_mem_entries := 1, using_disk := true }
    1 9 9 rfl (by decide) rfl

/-! ## C8 — failure surfacing -/

/-- C8 counterexample: a disk-backed store whose shared file mutex is
poisoned and which holds key `3`: `get` returns `None` — indistinguishable
from the key being absent — instead of surfacing an explicit error, while
`contains` still reports the key as present. -/
theorem FileHash.get_swallows_poisoned_lock_counterexample :
    FileHash.get natCodec
        { id2pos := [(3, (0, 1))], file_handle := some ⟨true, [9]⟩, in_memory := []
          disk_free := [], max_mem_entries := 5, using_disk := true } 3 = none ∧
    FileHash.contains
        ({ id2pos := [(3, (0, 1))], file_handle := some ⟨true, [9]⟩, in_memory := []
           disk_free := [], max_mem_entries := 5, using_disk := true } : FileHash Nat Nat)
        3 = true :=
  ⟨rfl, rfl⟩

/-- C8 (amended): `insert` surfaces a poisoned lock as an explicit error
(`Result::Err`); `get`, whose return type is a bare `Option`, swallows every
failure — poisoned lock, and equally a short read past end-of-file — into
`None` rather than an explicit error. -/
theorem FileHash.error_surfacing (c : Codec V) (s t : FileHash K V) (k : K) (v : V)
    (fh ft : FileSt)
    (hfh : s.file_handle = some fh) (hp : fh.poisoned = true) (hs : s.using_disk = true)
    (htf : t.file_handle = some ft) (htp : ft.poisoned = false)
    (pl : Nat × Nat) (htl : lookup t.id2pos k = some pl)
    (hshort : ft.data.length - pl.1 < pl.2) :
    (∃ e, FileHash.insert c s k v = .error e) ∧
    FileHash.get c s k = none ∧
    FileHash.get_disk c t k = none := by
  refine ⟨⟨"PoisonError", ?_⟩, ?_, ?_⟩
  · unfold FileHash.insert
    rw [if_pos hs]
    unfold FileHash.insert_disk
    rw [hfh]
    simp [hp]
  · unfold FileHash.get
    rw [if_pos hs]
    unfold FileHash.get_disk
    rw [hfh]
    simp [hp]
  · unfold FileHash.get_disk
    rw [htf]
    simp only [htp, Bool.false_eq_true, if_false, htl]
    rw [read_exact, if_neg (by omega)]

/-- Witness for C8 (amended) on two concrete stores: one with a poisoned
lock, one with an index entry pointing past end-of-file. -/
theorem FileHash.error_surfacing_witness :
    (∃ e, FileHash.insert natCodec
        { id2pos := [(3, (0, 1))], file_handle := some ⟨true, [9]⟩, in_memory := []
          disk_free := [], max_mem_entries := 5, using_disk := true } 3 11 = .error e) ∧
    FileHash.get natCodec
        { id2pos := [(3, (0, 1))], file_handle := some ⟨true, [9]⟩, in_memory := []
          disk_free := [], max_mem_entries := 5, using_disk := true } 3 = none ∧
    FileHash.get_disk natCodec
        { id2pos := [(3, (2, 9))], file_handle := some ⟨false, [1, 2, 3]⟩, in_memory := []
          disk_free := [], max_mem_entries := 5, using_disk := true } 3 = none :=
  FileHash.error_surfacing natCodec
    { id2pos := [(3, (0, 1))], file_handle := some ⟨true, [9]⟩, in_memory := []
      disk_free := [], max_mem_entries := 5, using_disk := true }
    { id2pos := [(3, (2, 9))], file_handle := some ⟨false, [1, 2, 3]⟩, in_memory := []
      disk_free := [], max_mem_entries := 5, using_disk := true }
    3 11 ⟨true, [9]⟩ ⟨false, [1, 2, 3]⟩ rfl rfl rfl rfl rfl (2, 9) rfl (by decide)

/-! ## C7 — allocator selection policy -/

theorem exactPass_of_not_found (l : List PositionLength) (size : Nat)
    (h : ∀ pl ∈ l, pl.length ≠ size) : exactPass l size = none := by
  induction l with
  | nil => rfl
  | cons pl rest ih =>
      rw [exactPass, if_neg (h pl (List.mem_cons_self _ _)),
        ih (fun q hq => h q (List.mem_cons_of_mem _ hq))]

theorem exactPass_found (l₁ : List PositionLength) (pl : PositionLength)
    (l₂ : List PositionLength) (size : Nat)
    (h1 : ∀ q ∈ l₁, q.length ≠ size) (h : pl.length = size) :
    exactPass (l₁ ++ pl :: l₂) size = some (pl.position, l₁ ++ l₂) := by
  induction l₁ with
  | nil => simp [exactPass, h]
  | cons q rest ih =>
      rw [List.cons_append, exactPass, if_neg (h1 q (List.mem_cons_self _ _)),
        ih (fun r hr => h1 r (List.mem_cons_of_mem _ hr))]
      rfl

theorem firstFitPass_of_not_found (l : List PositionLength) (size : Nat)
    (h : ∀ pl ∈ l, pl.length < size) : firstFitPass l size = none := by
  induction l with
  | nil => rfl
  | cons pl rest ih =>
      rw [firstFitPass, if_neg (by have := h pl (List.mem_cons_self _ _); omega),
        ih (fun q hq => h q (List.mem_cons_of_mem _ hq))]

theorem filePosGo_of_not_found (l : List (Nat × Nat)) (size : Nat)
    (h : ∀ q ∈ l, q.2 < size) : filePosGo l size = none := by
  induction l with
  | nil => rfl
  | cons q rest ih =>
      obtain ⟨st, len⟩ := q
      rw [filePosGo, if_neg (by have := h (st, len) (List.mem_cons_self _ _); simp at this; omega),
        ih (fun r hr => h r (List.mem_cons_of_mem _ hr))]

theorem filePosGo_found (l₁ : List (Nat × Nat)) (st len : Nat) (l₂ : List (Nat × Nat))
    (size : Nat) (h1 : ∀ q ∈ l₁, q.2 < size) (h : size ≤ len) :
    filePosGo (l₁ ++ (st, len) :: l₂) size
      = some (st, l₁ ++ (if len = size then l₂ else (st + size, len - size) :: l₂)) := by
  induction l₁ with
  | nil =>
      rw [List.nil_append, filePosGo, if_pos h]
      by_cases he : len = size
      · rw [if_pos he, if_pos he, List.nil_append]
      · rw [if_neg he, if_neg he, List.nil_append]
  | cons q rest ih =>
      obtain ⟨qs, ql⟩ := q
      rw [List.cons_append, filePosGo,
        if_neg (by have := h1 (qs, ql) (List.mem_cons_self _ _); simp at this; omega),
        ih (fun r hr => h1 r (List.mem_cons_of_mem _ hr)), List.cons_append]

/-- C7 (amended): `DiskFree::find_free` does prefer an exact-length extent —
returning the first such extent's offset and removing it entirely even when
a larger extent lies earlier — then falls back to first-fit in list
(ascending-offset) order, shrinking the chosen extent, and yields `none`
when no extent is large enough. The store's allocator
`FileHash::get_file_pos_to_write`, which `insert` actually uses, has **no**
exact-fit pass: it is plain first-fit (it removes an exact hit, shrinks a
larger one), defaulting to the end of the file when nothing fits. -/
theorem allocator_selection_policy :
    (∀ (l₁ l₂ : List PositionLength) (pl : PositionLength) (size : Nat),
        (∀ q ∈ l₁, q.length ≠ size) → pl.length = size →
        DiskFree.find_free ⟨l₁ ++ pl :: l₂⟩ size = (some pl.position, ⟨l₁ ++ l₂⟩)) ∧
    (∀ (l₁ l₂ : List PositionLength) (pl : PositionLength) (size : Nat),
        (∀ q ∈ l₁ ++ pl :: l₂, q.length ≠ size) →
        (∀ q ∈ l₁, q.length < size) → size ≤ pl.length →
        DiskFree.find_free ⟨l₁ ++ pl :: l₂⟩ size
          = (some pl.position, ⟨l₁ ++ ⟨pl.position + size, pl.length - size⟩ :: l₂⟩)) ∧
    (∀ (df : DiskFree) (size : Nat), (∀ q ∈ df.parts, q.length < size) →
        DiskFree.find_free df size = (none, df)) ∧
    (∀ (l₁ l₂ : List (Nat × Nat)) (st len fileLen size : Nat),
        (∀ q ∈ l₁, q.2 < size) → size ≤ len →
        get_file_pos_to_write fileLen (l₁ ++ (st, len) :: l₂) size
          = (st, l₁ ++ (if len = size then l₂ else (st + size, len - size) :: l₂))) ∧
    (∀ (fileLen size : Nat) (free : List (Nat × Nat)),
        (∀ q ∈ free, q.2 < size) →
        get_file_pos_to_write fileLen free size = (fileLen, free)) := by
  refine ⟨?_, ?_, ?_, ?_, ?_⟩
  · intro l₁ l₂ pl size h1 h
    rw [DiskFree.find_free]
    rw [exactPass_found l₁ pl l₂ size h1 h]
  · intro l₁ l₂ pl size hno h1 h
    rw [DiskFree.find_free, exactPass_of_not_found _ _ hno]
    have hfit : firstFitPass (l₁ ++ pl :: l₂) size
        = some (pl.position, l₁ ++ ⟨pl.position + size, pl.length - size⟩ :: l₂) := by
      clear hno
      induction l₁ with
      | nil => rw [List.nil_append, firstFitPass, if_pos h, List.nil_append]
      | cons q rest ih =>
          rw [List.cons_append, firstFitPass,
            if_neg (by have := h1 q (List.mem_cons_self _ _); omega),
            ih (fun r hr => h1 r (List.mem_cons_of_mem _ hr)), List.cons_append]
    rw [hfit]
  · intro df size h
    rw [DiskFree.find_free,
      exactPass_of_not_found _ _ (fun q hq => by have := h q hq; omega),
      firstFitPass_of_not_found _ _ h]
  · intro l₁ l₂ st len fileLen size h1 h
    rw [get_file_pos_to_write, filePosGo_found l₁ st len l₂ size h1 h]
  · intro fileLen size free h
    rw [get_file_pos_to_write, filePosGo_of_not_found free size h]

/-- C7 counterexample: the free list holds a length-15 extent at offset 0 and
a length-10 extent at offset 20; for a request of size 10 the store's
`get_file_pos_to_write` returns offset 0 and shrinks the length-15 extent —
it does not prefer the exact-length extent at offset 20, which the claim
requires (and which `DiskFree::find_free`, unused by `FileHash`, would
pick). -/
theorem get_file_pos_to_write_first_fit_counterexample :
    get_file_pos_to_write 100 [(0, 15), (20, 10)] 10 = (0, [(10, 5), (20, 10)]) ∧
    (get_file_pos_to_write 100 [(0, 15), (20, 10)] 10).1 ≠ 20 ∧
    DiskFree.find_free ⟨[⟨0, 15⟩, ⟨20, 10⟩]⟩ 10 = (some 20, ⟨[⟨0, 15⟩]⟩) :=
  ⟨rfl, by decide, rfl⟩

/-- Witness for C7 (amended): the spec's own example (extents of lengths 15
and 10, request 10) on both allocators, plus the none case. -/
theorem allocator_selection_policy_witness :
    DiskFree.find_free ⟨[⟨0, 15⟩, ⟨20, 10⟩]⟩ 10 = (some 20, ⟨[⟨0, 15⟩]⟩) ∧
    get_file_pos_to_write 100 [(0, 15), (20, 10)] 10 = (0, [(10, 5), (20, 10)]) ∧
    get_file_pos_to_write 100 [(0, 15), (20, 10)] 16 = (100, [(0, 15), (20, 10)]) := by
  refine ⟨?_, ?_, ?_⟩
  · exact allocator_selection_policy.1 [⟨0, 15⟩] [] ⟨20, 10⟩ 10 (by decide) rfl
  · exact allocator_selection_policy.2.2.2.1 [] [(20, 10)] 0 15 100 10 (by decide) (by decide)
  · exact allocator_selection_policy.2.2.2.2 100 16 [(0, 15), (20, 10)] (by decide)

/-! ## C6 — coalescing. List-surgery helpers -/

section ListSurgery

variable {α : Type}

theorem getD_append_length (t : List α) (x : α) (d : List α) (dflt : α) :
    (t ++ x :: d).getD t.length dflt = x := by
  induction t with
  | nil => rfl
  | cons a t ih => simpa using ih

theorem set_append_length (t : List α) (x y : α) (d : List α) :
    (t ++ x :: d).set t.length y = t ++ y :: d := by
  induction t with
  | nil => rfl
  | cons a t ih => simp [ih]

theorem eraseIdx_append_length (t : List α) (x : α) (d : List α) :
    (t ++ x :: d).eraseIdx t.length = t ++ d := by
  induction t with
  | nil => rfl
  | cons a t ih => simpa using ih

theorem insertIdx_append_length (t : List α) (x : α) (d : List α) :
    List.insertIdx t.length x (t ++ d) = t ++ x :: d := by
  induction t with
  | nil => rfl
  | cons a t ih => simpa [List.insertIdx] using ih

theorem findIdx?_append_acc (p : α → Bool) (t : List α) (x : α) (d : List α) (i : Nat)
    (ht : ∀ y ∈ t, ¬ p y) (hx : p x) :
    List.findIdx? p (t ++ x :: d) i = some (i + t.length) := by
  induction t generalizing i with
  | nil =>
      rw [List.nil_append, List.findIdx?_cons, if_pos hx]
      simp
  | cons a t ih =>
      rw [List.cons_append, List.findIdx?_cons,
        if_neg (by simpa using ht a (List.mem_cons_self _ _)),
        ih (i + 1) (fun y hy => ht y (List.mem_cons_of_mem _ hy))]
      congr 1
      simp [List.length_cons]
      omega

theorem findIdx?_append_first (p : α → Bool) (t : List α) (x : α) (d : List α)
    (ht : ∀ y ∈ t, ¬ p y) (hx : p x) :
    List.findIdx? p (t ++ x :: d) = some t.length := by
  simpa using findIdx?_append_acc p t x d 0 ht hx

theorem findIdx?_none_acc (p : α → Bool) (l : List α) (i : Nat)
    (h : ∀ y ∈ l, ¬ p y) : List.findIdx? p l i = none := by
  induction l generalizing i with
  | nil => rfl
  | cons a t ih =>
      rw [List.findIdx?_cons, if_neg (by simpa using h a (List.mem_cons_self _ _)),
        ih (i + 1) (fun y hy => h y (List.mem_cons_of_mem _ hy))]

end ListSurgery

theorem insertIdxFor_zero (R : List PositionLength) (pos : Nat)
    (h : ∀ z ∈ R, ¬ z.position < pos) : insertIdxFor R pos = 0 := by
  induction R with
  | nil => rfl
  | cons z t ih =>
      rw [insertIdxFor]
      simp [ih (fun r hr => h r (List.mem_cons_of_mem _ hr)), h z (List.mem_cons_self _ _)]

theorem insertIdxFor_spec (L R : List PositionLength) (pos : Nat)
    (hL : ∀ y ∈ L, y.position < pos) (hR : ∀ z ∈ R, ¬ z.position < pos) :
    insertIdxFor (L ++ R) pos = L.length := by
  induction L with
  | nil => exact insertIdxFor_zero R pos hR
  | cons a t ih =>
      rw [List.cons_append, insertIdxFor]
      have hrec := ih (fun y hy => hL y (List.mem_cons_of_mem _ hy))
      simp only [hrec]
      by_cases ht : t.length = 0
      · simp only [ht, if_pos rfl, if_pos (hL a (List.mem_cons_self _ _))]
        simp [ht]
      · simp only [if_neg ht, List.length_cons]

/-! The four arms of `DiskFree::add`, computed under decompositions that pin
down the two `findIdx?` searches. -/

theorem add_eq_both (L' R' : List PositionLength) (bp ap n : PositionLength)
    (hL' : ∀ y ∈ L', y.endPos ≠ n.position) (hbp : bp.endPos = n.position)
    (hLb : ∀ y ∈ L' ++ [bp], y.position ≠ n.endPos) (hap : ap.position = n.endPos) :
    DiskFree.add ⟨L' ++ bp :: ap :: R'⟩ n
      = ⟨L' ++ ⟨bp.position, ap.endPos - bp.position⟩ :: R'⟩ := by
  have hb : List.findIdx? (fun pl => pl.endPos = n.position) (L' ++ bp :: ap :: R')
      = some L'.length :=
    findIdx?_append_first _ L' bp (ap :: R')
      (fun y hy => by simpa using hL' y hy) (by simpa using hbp)
  have ha : List.findIdx? (fun pl => pl.position = n.position + n.length)
      (L' ++ bp :: ap :: R') = some (L'.length + 1) := by
    have h2 : L' ++ bp :: ap :: R' = (L' ++ [bp]) ++ ap :: R' := by simp
    rw [h2]
    have h3 := findIdx?_append_first
      (fun pl : PositionLength => pl.position = n.position + n.length) (L' ++ [bp]) ap R'
      (fun y hy => by simpa [PositionLength.endPos] using hLb y hy)
      (by simpa [PositionLength.endPos] using hap)
    simpa using h3
  unfold DiskFree.add
  simp only [PositionLength.endPos] at hb ha ⊢
  rw [hb, ha]
  have hgb : (L' ++ bp :: ap :: R').getD L'.length ⟨0, 0⟩ = bp :=
    getD_append_length L' bp (ap :: R') ⟨0, 0⟩
  have hga : (L' ++ bp :: ap :: R').getD (L'.length + 1) ⟨0, 0⟩ = ap := by
    have h2 : L' ++ bp :: ap :: R' = (L' ++ [bp]) ++ ap :: R' := by simp
    rw [h2]
    have h3 := getD_append_length (L' ++ [bp]) ap R' (⟨0, 0⟩ : PositionLength)
    simpa using h3
  simp only [Nat.zero_add, hga, hgb]
  rw [set_append_length L' bp ⟨bp.position, ap.position + ap.length - bp.position⟩ (ap :: R')]
  have herase :
      (L' ++ (⟨bp.position, ap.position + ap.length - bp.position⟩ : PositionLength)
          :: ap :: R').eraseIdx (L'.length + 1)
        = L' ++ ⟨bp.position, ap.position + ap.length - bp.position⟩ :: R' := by
    have h3 : L' ++ (⟨bp.position, ap.position + ap.length - bp.position⟩ : PositionLength)
        :: ap :: R'
        = (L' ++ [(⟨bp.position, ap.position + ap.length - bp.position⟩ : PositionLength)])
          ++ ap :: R' := by
      simp
    rw [h3]
    have h4 := eraseIdx_append_length
      (L' ++ [(⟨bp.position, ap.position + ap.length - bp.position⟩ : PositionLength)]) ap R'
    simpa using h4
  rw [herase]

theorem add_eq_before (L' R : List PositionLength) (bp n : PositionLength)
    (hL' : ∀ y ∈ L', y.endPos ≠ n.position) (hbp : bp.endPos = n.position)
    (hnoA : ∀ y ∈ L' ++ bp :: R, y.position ≠ n.endPos) :
    DiskFree.add ⟨L' ++ bp :: R⟩ n
      = ⟨L' ++ ⟨bp.position, bp.length + n.length⟩ :: R⟩ := by
  have hb : List.findIdx? (fun pl => pl.endPos = n.position) (L' ++ bp :: R)
      = some L'.length :=
    findIdx?_append_first _ L' bp R
      (fun y hy => by simpa using hL' y hy) (by simpa using hbp)
  have ha : List.findIdx? (fun pl => pl.position = n.position + n.length)
      (L' ++ bp :: R) = none :=
    findIdx?_none_acc _ _ 0
      (fun y hy => by simpa [PositionLength.endPos] using hnoA y hy)
  unfold DiskFree.add
  simp only [PositionLength.endPos] at hb ha ⊢
  rw [hb, ha]
  have hgb : (L' ++ bp :: R).getD L'.length ⟨0, 0⟩ = bp :=
    getD_append_length L' bp R ⟨0, 0⟩
  simp only [hgb]
  rw [set_append_length L' bp _ R]

theorem add_eq_after (L R' : List PositionLength) (ap n : PositionLength)
    (hnoB : ∀ y ∈ L ++ ap :: R', y.endPos ≠ n.position)
    (hL : ∀ y ∈ L, y.position ≠ n.endPos) (hap : ap.position = n.endPos) :
    DiskFree.add ⟨L ++ ap :: R'⟩ n
      = ⟨L ++ ⟨n.position, ap.length + n.length⟩ :: R'⟩ := by
  have hb : List.findIdx? (fun pl => pl.endPos = n.position) (L ++ ap :: R') = none :=
    findIdx?_none_acc _ _ 0 (fun y hy => by simpa using hnoB y hy)
  have ha : List.findIdx? (fun pl => pl.position = n.position + n.length)
      (L ++ ap :: R') = some L.length :=
    findIdx?_append_first _ L ap R'
      (fun y hy => by simpa [PositionLength.endPos] using hL y hy)
      (by simpa [PositionLength.endPos] using hap)
  unfold DiskFree.add
  simp only [PositionLength.endPos] at hb ha ⊢
  rw [hb, ha]
  have hga : (L ++ ap :: R').getD L.length ⟨0, 0⟩ = ap :=
    getD_append_length L ap R' ⟨0, 0⟩
  simp only [hga]
  rw [set_append_length L ap _ R']

theorem add_eq_none (L R : List PositionLength) (n : PositionLength)
    (hnoB : ∀ y ∈ L ++ R, y.endPos ≠ n.position)
    (hnoA : ∀ y ∈ L ++ R, y.position ≠ n.endPos)
    (hL : ∀ y ∈ L, y.position < n.position)
    (hR : ∀ z ∈ R, ¬ z.position < n.position) :
    DiskFree.add ⟨L ++ R⟩ n = ⟨L ++ n :: R⟩ := by
  have hb : List.findIdx? (fun pl => pl.endPos = n.position) (L ++ R) = none :=
    findIdx?_none_acc _ _ 0 (fun y hy => by simpa using hnoB y hy)
  have ha : List.findIdx? (fun pl => pl.position = n.position + n.length) (L ++ R) = none :=
    findIdx?_none_acc _ _ 0
      (fun y hy => by simpa [PositionLength.endPos] using hnoA y hy)
  unfold DiskFree.add
  simp only [PositionLength.endPos] at hb ha ⊢
  rw [hb, ha, insertIdxFor_spec L R n.position hL hR, insertIdx_append_length]

/-- Under the sortedness invariant, a range disjoint from all extents splits
the list into a prefix ending at or before it and a suffix starting at or
after it. -/
theorem split_before_after (n : PositionLength) (l : List PositionLength)
    (hpw : l.Pairwise PositionLength.Sep)
    (hdisj : ∀ p ∈ l, n.RDisj p) :
    ∃ L R, l = L ++ R ∧ (∀ p ∈ L, p.endPos ≤ n.position) ∧
      (∀ p ∈ R, n.endPos ≤ p.position) := by
  induction l with
  | nil => exact ⟨[], [], rfl, by simp, by simp⟩
  | cons p t ih =>
      have hpt := List.pairwise_cons.mp hpw
      rcases hdisj p (List.mem_cons_self _ _) with hafter | hbefore
      · refine ⟨[], p :: t, rfl, by simp, ?_⟩
        intro q hq
        rcases List.mem_cons.mp hq with rfl | hq
        · exact hafter
        · have hsep := hpt.1 q hq
          unfold PositionLength.Sep PositionLength.endPos at hsep
          unfold PositionLength.endPos at hafter ⊢
          omega
      · obtain ⟨L, R, rfl, hL, hR⟩ :=
          ih hpt.2 (fun q hq => hdisj q (List.mem_cons_of_mem _ hq))
        refine ⟨p :: L, R, rfl, ?_, hR⟩
        intro q hq
        rcases List.mem_cons.mp hq with rfl | hq
        · exact hbefore
        · exact hL q hq

/-- Assembling `Separated` for a list with one fresh extent in the middle. -/
theorem separated_mid (A B : List PositionLength) (m : PositionLength)
    (hpwA : A.Pairwise PositionLength.Sep) (hpwB : B.Pairwise PositionLength.Sep)
    (hcross : ∀ a ∈ A, ∀ b ∈ B, a.Sep b)
    (hAm : ∀ a ∈ A, a.Sep m) (hmB : ∀ b ∈ B, m.Sep b)
    (hposA : ∀ p ∈ A, 0 < p.length) (hposB : ∀ p ∈ B, 0 < p.length)
    (hposm : 0 < m.length) :
    DiskFree.Separated ⟨A ++ m :: B⟩ := by
  constructor
  · rw [List.pairwise_append]
    refine ⟨hpwA, ?_, ?_⟩
    · rw [List.pairwise_cons]
      exact ⟨hmB, hpwB⟩
    · intro a ha w hw
      rcases List.mem_cons.mp hw with rfl | hw
      · exact hAm a ha
      · exact hcross a ha w hw
  · intro p hp
    rcases List.mem_append.mp hp with h | h
    · exact hposA p h
    · rcases List.mem_cons.mp h with rfl | h
      · exact hposm
      · exact hposB p h

/-- Coverage of a list with one fresh extent in the middle maps into the old
coverage plus the released range. -/
theorem covers_mid (A B l : List PositionLength) (m n : PositionLength)
    (hA : ∀ p ∈ A, p ∈ l) (hB : ∀ p ∈ B, p ∈ l)
    (hmid : ∀ x, m.inRange x → (DiskFree.covers ⟨l⟩ x ∨ n.inRange x)) :
    ∀ x, DiskFree.covers ⟨A ++ m :: B⟩ x → DiskFree.covers ⟨l⟩ x ∨ n.inRange x := by
  rintro x ⟨pl, hpl, hx⟩
  rcases List.mem_append.mp hpl with h | h
  · exact Or.inl ⟨pl, hA pl h, hx⟩
  · rcases List.mem_cons.mp h with rfl | h
    · exact hmid x hx
    · exact Or.inl ⟨pl, hB pl h, hx⟩

theorem preserve_case_both (L' R' : List PositionLength) (bp ap n : PositionLength)
    (hpw : ((L' ++ [bp]) ++ ap :: R').Pairwise PositionLength.Sep)
    (hpos : ∀ p ∈ (L' ++ [bp]) ++ ap :: R', 0 < p.length)
    (hn : 0 < n.length)
    (hbp : bp.endPos = n.position) (hap : ap.position = n.endPos) :
    DiskFree.Separated ⟨L' ++ ⟨bp.position, ap.endPos - bp.position⟩ :: R'⟩ ∧
    (∀ x, DiskFree.covers ⟨L' ++ ⟨bp.position, ap.endPos - bp.position⟩ :: R'⟩ x →
      DiskFree.covers ⟨(L' ++ [bp]) ++ ap :: R'⟩ x ∨ n.inRange x) := by
  obtain ⟨hpwL, hpwAR, hcross⟩ := List.pairwise_append.mp hpw
  obtain ⟨hpwL', hpwbp, hcrossL'bp⟩ := List.pairwise_append.mp hpwL
  obtain ⟨hapR', hpwR'⟩ := List.pairwise_cons.mp hpwAR
  unfold PositionLength.endPos at hbp hap
  constructor
  · apply separated_mid
    · exact hpwL'
    · exact hpwR'
    · intro a ha b hb
      exact hcross a (List.mem_append_left _ ha) b (List.mem_cons_of_mem _ hb)
    · intro a ha
      exact hcrossL'bp a ha bp (List.mem_cons_self _ _)
    · intro b hb
      have h1 := hapR' b hb
      unfold PositionLength.Sep PositionLength.endPos at h1
      show bp.position + (ap.endPos - bp.position) < b.position
      unfold PositionLength.endPos
      omega
    · intro p hp
      exact hpos p (List.mem_append_left _ (List.mem_append_left _ hp))
    · intro p hp
      exact hpos p (List.mem_append_right _ (List.mem_cons_of_mem _ hp))
    · show 0 < ap.endPos - bp.position
      unfold PositionLength.endPos
      omega
  · apply covers_mid
    · intro p hp
      exact List.mem_append_left _ (List.mem_append_left _ hp)
    · intro p hp
      exact List.mem_append_right _ (List.mem_cons_of_mem _ hp)
    · intro x hx
      have hx' : bp.position ≤ x ∧ x < bp.position + (ap.endPos - bp.position) := hx
      unfold PositionLength.endPos at hx'
      by_cases h1 : x < bp.position + bp.length
      · refine Or.inl ⟨bp,
          List.mem_append_left _ (List.mem_append_right _ (List.mem_singleton_self _)), ?_⟩
        show bp.position ≤ x ∧ x < bp.endPos
        unfold PositionLength.endPos
        omega
      · by_cases h2 : x < n.position + n.length
        · refine Or.inr ?_
          show n.position ≤ x ∧ x < n.endPos
          unfold PositionLength.endPos
          omega
        · refine Or.inl ⟨ap, List.mem_append_right _ (List.mem_cons_self _ _), ?_⟩
          show ap.position ≤ x ∧ x < ap.endPos
          unfold PositionLength.endPos
          omega

theorem preserve_case_before (L' R : List PositionLength) (bp n : PositionLength)
    (hpw : ((L' ++ [bp]) ++ R).Pairwise PositionLength.Sep)
    (hpos : ∀ p ∈ (L' ++ [bp]) ++ R, 0 < p.length)
    (hn : 0 < n.length)
    (hbp : bp.endPos = n.position)
    (hRafter : ∀ z ∈ R, n.endPos ≤ z.position)
    (hRne : ∀ z ∈ R, z.position ≠ n.endPos) :
    DiskFree.Separated ⟨L' ++ ⟨bp.position, bp.length + n.length⟩ :: R⟩ ∧
    (∀ x, DiskFree.covers ⟨L' ++ ⟨bp.position, bp.length + n.length⟩ :: R⟩ x →
      DiskFree.covers ⟨(L' ++ [bp]) ++ R⟩ x ∨ n.inRange x) := by
  obtain ⟨hpwL, hpwR, hcross⟩ := List.pairwise_append.mp hpw
  obtain ⟨hpwL', hpwbp, hcrossL'bp⟩ := List.pairwise_append.mp hpwL
  unfold PositionLength.endPos at hbp
  constructor
  · apply separated_mid
    · exact hpwL'
    · exact hpwR
    · intro a ha b hb
      exact hcross a (List.mem_append_left _ ha) b hb
    · intro a ha
      exact hcrossL'bp a ha bp (List.mem_cons_self _ _)
    · intro b hb
      have h1 := hRafter b hb
      have h2 := hRne b hb
      unfold PositionLength.endPos at h1 h2
      show bp.position + (bp.length + n.length) < b.position
      omega
    · intro p hp
      exact hpos p (List.mem_append_left _ (List.mem_append_left _ hp))
    · intro p hp
      exact hpos p (List.mem_append_right _ hp)
    · show 0 < bp.length + n.length
      omega
  · apply covers_mid
    · intro p hp
      exact List.mem_append_left _ (List.mem_append_left _ hp)
    · intro p hp
      exact List.mem_append_right _ hp
    · intro x hx
      have hx' : bp.position ≤ x ∧ x < bp.position + (bp.length + n.length) := hx
      by_cases h1 : x < bp.position + bp.length
      · refine Or.inl ⟨bp,
          List.mem_append_left _ (List.mem_append_right _ (List.mem_singleton_self _)), ?_⟩
        show bp.position ≤ x ∧ x < bp.endPos
        unfold PositionLength.endPos
        omega
      · refine Or.inr ?_
        show n.position ≤ x ∧ x < n.endPos
        unfold PositionLength.endPos
        omega

theorem preserve_case_after (L R' : List PositionLength) (ap n : PositionLength)
    (hpw : (L ++ ap :: R').Pairwise PositionLength.Sep)
    (hpos : ∀ p ∈ L ++ ap :: R', 0 < p.length)
    (hn : 0 < n.length)
    (hap : ap.position = n.endPos)
    (hLbefore : ∀ y ∈ L, y.endPos ≤ n.position)
    (hLne : ∀ y ∈ L, y.endPos ≠ n.position) :
    DiskFree.Separated ⟨L ++ ⟨n.position, ap.length + n.length⟩ :: R'⟩ ∧
    (∀ x, DiskFree.covers ⟨L ++ ⟨n.position, ap.length + n.length⟩ :: R'⟩ x →
      DiskFree.covers ⟨L ++ ap :: R'⟩ x ∨ n.inRange x) := by
  obtain ⟨hpwL, hpwAR, hcross⟩ := List.pairwise_append.mp hpw
  obtain ⟨hapR', hpwR'⟩ := List.pairwise_cons.mp hpwAR
  unfold PositionLength.endPos at hap
  constructor
  · apply separated_mid
    · exact hpwL
    · exact hpwR'
    · intro a ha b hb
      exact hcross a ha b (List.mem_cons_of_mem _ hb)
    · intro a ha
      have h1 := hLbefore a ha
      have h2 := hLne a ha
      unfold PositionLength.endPos at h1 h2
      show a.endPos < n.position
      unfold PositionLength.endPos
      omega
    · intro b hb
      have h1 := hapR' b hb
      unfold PositionLength.Sep PositionLength.endPos at h1
      show n.position + (ap.length + n.length) < b.position
      omega
    · intro p hp
      exact hpos p (List.mem_append_left _ hp)
    · intro p hp
      exact hpos p (List.mem_append_right _ (List.mem_cons_of_mem _ hp))
    · show 0 < ap.length + n.length
      omega
  · apply covers_mid
    · intro p hp
      exact List.mem_append_left _ hp
    · intro p hp
      exact List.mem_append_right _ (List.mem_cons_of_mem _ hp)
    · intro x hx
      have hx' : n.position ≤ x ∧ x < n.position + (ap.length + n.length) := hx
      by_cases h1 : x < n.position + n.length
      · refine Or.inr ?_
        show n.position ≤ x ∧ x < n.endPos
        unfold PositionLength.endPos
        omega
      · refine Or.inl ⟨ap, List.mem_append_right _ (List.mem_cons_self _ _), ?_⟩
        show ap.position ≤ x ∧ x < ap.endPos
        unfold PositionLength.endPos
        omega

theorem preserve_case_none (L R : List PositionLength) (n : PositionLength)
    (hpw : (L ++ R).Pairwise PositionLength.Sep)
    (hpos : ∀ p ∈ L ++ R, 0 < p.length)
    (hn : 0 < n.length)
    (hLbefore : ∀ y ∈ L, y.endPos ≤ n.position)
    (hLne : ∀ y ∈ L, y.endPos ≠ n.position)
    (hRafter : ∀ z ∈ R, n.endPos ≤ z.position)
    (hRne : ∀ z ∈ R, z.position ≠ n.endPos) :
    DiskFree.Separated ⟨L ++ n :: R⟩ ∧
    (∀ x, DiskFree.covers ⟨L ++ n :: R⟩ x →
      DiskFree.covers ⟨L ++ R⟩ x ∨ n.inRange x) := by
  obtain ⟨hpwL, hpwR, hcross⟩ := List.pairwise_append.mp hpw
  constructor
  · apply separated_mid
    · exact hpwL
    · exact hpwR
    · exact hcross
    · intro a ha
      have h1 := hLbefore a ha
      have h2 := hLne a ha
      unfold PositionLength.endPos at h1 h2
      show a.endPos < n.position
      unfold PositionLength.endPos
      omega
    · intro b hb
      have h1 := hRafter b hb
      have h2 := hRne b hb
      unfold PositionLength.endPos at h1 h2
      show n.endPos < b.position
      unfold PositionLength.endPos
      omega
    · intro p hp
      exact hpos p (List.mem_append_left _ hp)
    · intro p hp
      exact hpos p (List.mem_append_right _ hp)
    · exact hn
  · apply covers_mid
    · intro p hp
      exact List.mem_append_left _ hp
    · intro p hp
      exact List.mem_append_right _ hp
    · intro x hx
      exact Or.inr hx


/-- `DiskFree::add` preserves the allocator invariant and covers no bytes
beyond the old extents plus the released range, whenever the released range
is nonempty and disjoint from every current extent. -/
theorem DiskFree.add_preserves (df : DiskFree) (n : PositionLength)
    (hsep : df.Separated) (hn : 0 < n.length)
    (hdisj : ∀ p ∈ df.parts, n.RDisj p) :
    (df.add n).Separated ∧
    (∀ x, (df.add n).covers x → df.covers x ∨ n.inRange x) := by
  obtain ⟨l⟩ := df
  obtain ⟨hpw, hpos⟩ := hsep
  simp only at hpw hpos hdisj
  obtain ⟨L, R, hLR, hL, hR⟩ := split_before_after n l hpw hdisj
  subst hLR
  obtain ⟨hpwL, hpwR, hcrossLR⟩ := List.pairwise_append.mp hpw
  have hRnotb : ∀ p ∈ R, p.endPos ≠ n.position := by
    intro p hp
    have h1 := hR p hp
    unfold PositionLength.endPos at *
    omega
  have hLnota : ∀ p ∈ L, p.position ≠ n.endPos := by
    intro p hp
    have h1 := hL p hp
    unfold PositionLength.endPos at *
    omega
  by_cases hbm : ∃ L' bp, L = L' ++ [bp] ∧ bp.endPos = n.position
  · obtain ⟨L', bp, rfl, hbp⟩ := hbm
    obtain ⟨hpwL', hpwbp, hcrossL'bp⟩ := List.pairwise_append.mp hpwL
    have hL'ne : ∀ y ∈ L', y.endPos ≠ n.position := by
      intro y hy
      have h1 := hcrossL'bp y hy bp (List.mem_cons_self _ _)
      unfold PositionLength.Sep PositionLength.endPos at *
      omega
    by_cases ham : ∃ ap R', R = ap :: R' ∧ ap.position = n.endPos
    · obtain ⟨ap, R', rfl, hap⟩ := ham
      have hshape : (L' ++ [bp]) ++ ap :: R' = L' ++ bp :: ap :: R' := by simp
      have key := preserve_case_both L' R' bp ap n hpw hpos hn hbp hap
      rw [hshape] at key
      rw [show (⟨(L' ++ [bp]) ++ ap :: R'⟩ : DiskFree) = ⟨L' ++ bp :: ap :: R'⟩ by rw [hshape]]
      rw [add_eq_both L' R' bp ap n hL'ne hbp hLnota hap]
      exact key
    · have hRne : ∀ z ∈ R, z.position ≠ n.endPos := by
        intro z hz
        cases R with
        | nil => simp at hz
        | cons ap R' =>
            rcases List.mem_cons.mp hz with rfl | hz'
            · intro hc
              exact ham ⟨z, R', rfl, hc⟩
            · obtain ⟨hapR', _⟩ := List.pairwise_cons.mp hpwR
              have h1 := hapR' z hz'
              have h2 := hR ap (List.mem_cons_self _ _)
              unfold PositionLength.Sep PositionLength.endPos at *
              omega
      have hshape : (L' ++ [bp]) ++ R = L' ++ bp :: R := by simp
      have key := preserve_case_before L' R bp n hpw hpos hn hbp hR hRne
      rw [hshape] at key
      rw [show (⟨(L' ++ [bp]) ++ R⟩ : DiskFree) = ⟨L' ++ bp :: R⟩ by rw [hshape]]
      rw [add_eq_before L' R bp n hL'ne hbp
        (by
          intro y hy
          rcases List.mem_append.mp hy with h | h
          · exact hLnota y (List.mem_append_left _ h)
          · rcases List.mem_cons.mp h with rfl | h
            · exact hLnota y (List.mem_append_right _ (List.mem_singleton_self _))
            · exact hRne y h)]
      exact key
  · have hLne : ∀ y ∈ L, y.endPos ≠ n.position := by
      intro y hy
      rcases List.eq_nil_or_concat L with rfl | ⟨L', bp, hLeq⟩
      · simp at hy
      · rw [List.concat_eq_append] at hLeq
        subst hLeq
        obtain ⟨hpwL', hpwbp, hcrossL'bp⟩ := List.pairwise_append.mp hpwL
        rcases List.mem_append.mp hy with h | h
        · have h1 := hcrossL'bp y h bp (List.mem_cons_self _ _)
          have h2 := hL bp (List.mem_append_right _ (List.mem_singleton_self _))
          unfold PositionLength.Sep PositionLength.endPos at *
          omega
        · rcases List.mem_cons.mp h with rfl | h
          · intro hc
            exact hbm ⟨L', y, rfl, hc⟩
          · simp at h
    by_cases ham : ∃ ap R', R = ap :: R' ∧ ap.position = n.endPos
    · obtain ⟨ap, R', rfl, hap⟩ := ham
      rw [add_eq_after L R' ap n
        (by
          intro y hy
          rcases List.mem_append.mp hy with h | h
          · exact hLne y h
          · exact hRnotb y h)
        hLnota hap]
      exact preserve_case_after L R' ap n hpw hpos hn hap hL hLne
    · have hRne : ∀ z ∈ R, z.position ≠ n.endPos := by
        intro z hz
        cases R with
        | nil => simp at hz
        | cons ap R' =>
            rcases List.mem_cons.mp hz with rfl | hz'
            · intro hc
              exact ham ⟨z, R', rfl, hc⟩
            · obtain ⟨hapR', _⟩ := List.pairwise_cons.mp hpwR
              have h1 := hapR' z hz'
              have h2 := hR ap (List.mem_cons_self _ _)
              unfold PositionLength.Sep PositionLength.endPos at *
              omega
      rw [add_eq_none L R n
        (by
          intro y hy
          rcases List.mem_append.mp hy with h | h
          · exact hLne y h
          · exact hRnotb y h)
        (by
          intro y hy
          rcases List.mem_append.mp hy with h | h
          · exact hLnota y h
          · exact hRne y h)
        (by
          intro y hy
          have h1 := hL y hy
          have h2 := hLne y hy
          have h3 := hpos y (List.mem_append_left _ hy)
          unfold PositionLength.endPos at *
          omega)
        (by
          intro z hz
          have h1 := hR z hz
          unfold PositionLength.endPos at *
          omega)]
      exact preserve_case_none L R n hpw hpos hn hL hLne hR hRne


/-- Folding `DiskFree::add` over positive, pairwise-disjoint releases keeps
the allocator `Separated`, starting from any `Separated` allocator covering
bytes disjoint from every pending release. -/
theorem foldl_add_separated (rs : List PositionLength) (df : DiskFree)
    (hsep : df.Separated)
    (hpos : ∀ p ∈ rs, 0 < p.length)
    (hdis : ∀ p ∈ rs, ∀ x, df.covers x → ¬ p.inRange x)
    (hpw : rs.Pairwise PositionLength.RDisj) :
    (rs.foldl DiskFree.add df).Separated := by
  induction rs generalizing df with
  | nil => exact hsep
  | cons m rest ih =>
      have hmlen : 0 < m.length := hpos m (List.mem_cons_self _ _)
      have hdisj : ∀ p ∈ df.parts, m.RDisj p := by
        intro p hp
        by_contra hcon
        unfold PositionLength.RDisj at hcon
        push_neg at hcon
        have hppos : 0 < p.length := hsep.2 p hp
        have hcov : df.covers (max m.position p.position) :=
          ⟨p, hp, by
            unfold PositionLength.inRange PositionLength.endPos at *
            omega⟩
        have hno := hdis m (List.mem_cons_self _ _) _ hcov
        unfold PositionLength.endPos at hcon
        unfold PositionLength.inRange PositionLength.endPos at hno
        omega
      have step := DiskFree.add_preserves df m hsep hmlen hdisj
      rw [List.foldl_cons]
      apply ih (df.add m) step.1 (fun p hp => hpos p (List.mem_cons_of_mem _ hp)) ?_
        (List.pairwise_cons.mp hpw).2
      intro p hp x hc
      rcases step.2 x hc with h | h
      · exact hdis p (List.mem_cons_of_mem _ hp) x h
      · have hmp := (List.pairwise_cons.mp hpw).1 p hp
        unfold PositionLength.RDisj PositionLength.endPos at hmp
        unfold PositionLength.inRange PositionLength.endPos at h
        intro hpx
        unfold PositionLength.inRange PositionLength.endPos at hpx
        omega

/-- C6 (amended): the standalone allocator `DiskFree::add` does coalesce with
its adjacent before/after neighbors on every release: after any sequence of
releases of nonempty, pairwise-disjoint ranges the free extents are pairwise
non-overlapping and non-adjacent, and the spec's example — releasing
`[0,10)`, `[20,10)` and `[10,10)` in any of the six orders — leaves exactly
the single extent `[0,30)`. However `FileHash`, the store itself, does not
use `DiskFree`: its `release_storage` pushes onto a plain vector without
coalescing (see the counterexample), so the coalescing guarantee holds for
the `DiskFree` allocator only. -/
theorem DiskFree.add_coalesces :
    (∀ rs : List PositionLength, (∀ p ∈ rs, 0 < p.length) →
        rs.Pairwise PositionLength.RDisj → (releaseAll rs).Separated) ∧
    (releaseAll [⟨0, 10⟩, ⟨20, 10⟩, ⟨10, 10⟩]).parts = [⟨0, 30⟩] ∧
    (releaseAll [⟨20, 10⟩, ⟨0, 10⟩, ⟨10, 10⟩]).parts = [⟨0, 30⟩] ∧
    (releaseAll [⟨0, 10⟩, ⟨10, 10⟩, ⟨20, 10⟩]).parts = [⟨0, 30⟩] ∧
    (releaseAll [⟨10, 10⟩, ⟨0, 10⟩, ⟨20, 10⟩]).parts = [⟨0, 30⟩] ∧
    (releaseAll [⟨10, 10⟩, ⟨20, 10⟩, ⟨0, 10⟩]).parts = [⟨0, 30⟩] ∧
    (releaseAll [⟨20, 10⟩, ⟨10, 10⟩, ⟨0, 10⟩]).parts = [⟨0, 30⟩] := by
  refine ⟨?_, rfl, rfl, rfl, rfl, rfl, rfl⟩
  intro rs hpos hpw
  unfold releaseAll
  apply foldl_add_separated rs DiskFree.new
  · exact ⟨List.Pairwise.nil, by intro p hp; simp [DiskFree.new] at hp⟩
  · exact hpos
  · intro p hp x hc
    obtain ⟨pl, hpl, _⟩ := hc
    simp [DiskFree.new] at hpl
  · exact hpw

/-- Witness for C6 (amended): the spec's release sequence yields a separated
allocator (indeed the single extent `[0,30)`). -/
theorem DiskFree.add_coalesces_witness :
    (releaseAll [⟨0, 10⟩, ⟨20, 10⟩, ⟨10, 10⟩]).Separated :=
  DiskFree.add_coalesces.1 [⟨0, 10⟩, ⟨20, 10⟩, ⟨10, 10⟩] (by decide) (by decide)

/-- C6 counterexample: `FileHash::release_storage` — the release path the
store actually uses — appends freed extents to its `disk_free` vector with
no coalescing: releasing the regions `[0,10)`, `[20,10)` and then `[10,10)`
(held by keys 1, 2, 3) leaves three touching extents, not one extent
`[0,30)`. -/
theorem FileHash.release_storage_no_coalesce_counterexample :
    (FileHash.release_storage (FileHash.release_storage (FileHash.release_storage
        ({ id2pos := [(1, (0, 10)), (2, (20, 10)), (3, (10, 10))], file_handle := none
           in_memory := [], disk_free := [], max_mem_entries := 5, using_disk := true }
          : FileHash Nat Nat) 1) 2) 3).disk_free
      = [(0, 10), (20, 10), (10, 10)] ∧
    (FileHash.release_storage (FileHash.release_storage (FileHash.release_storage
        ({ id2pos := [(1, (0, 10)), (2, (20, 10)), (3, (10, 10))], file_handle := none
           in_memory := [], disk_free := [], max_mem_entries := 5, using_disk := true }
          : FileHash Nat Nat) 1) 2) 3).disk_free.length ≠ 1 :=
  ⟨rfl, by decide⟩

/-! ## C2 — threshold transition -/

theorem mem_of_lookup_eq_some {A : Type} (m : List (K × A)) (k : K) (a : A)
    (h : lookup m k = some a) : (k, a) ∈ m := by
  induction m with
  | nil => simp at h
  | cons p rest ih =>
      obtain ⟨k', a'⟩ := p
      by_cases hk : k' = k
      · rw [lookup_cons, if_pos hk] at h
        subst hk
        obtain rfl : a' = a := by simpa using h
        exact List.mem_cons_self _ _
      · rw [lookup_cons, if_neg hk] at h
        exact List.mem_cons_of_mem _ (ih h)

theorem lookup_of_mem_nodup {A : Type} (m : List (K × A)) (k : K) (a : A)
    (hnd : (m.map Prod.fst).Nodup) (h : (k, a) ∈ m) : lookup m k = some a := by
  induction m with
  | nil => simp at h
  | cons p rest ih =>
      obtain ⟨k', a'⟩ := p
      simp only [List.map_cons, List.nodup_cons] at hnd
      rcases List.mem_cons.mp h with heq | hmem
      · obtain ⟨rfl, rfl⟩ := Prod.mk.injEq .. ▸ heq
        simp [lookup]
      · have hne : k' ≠ k := by
          intro hc
          subst hc
          exact hnd.1 (List.mem_map.mpr ⟨(k', a), hmem, rfl⟩)
        rw [lookup_cons, if_neg hne]
        exact ih hnd.2 hmem

theorem insertAll_append (c : Codec V) (s : FileHash K V) (xs ys : List (K × V)) :
    insertAll c s (xs ++ ys)
      = match insertAll c s xs with
        | .error e => .error e
        | .ok t => insertAll c t ys := by
  induction xs generalizing s with
  | nil => rfl
  | cons p rest ih =>
      obtain ⟨k, v⟩ := p
      rw [List.cons_append, insertAll, insertAll]
      cases FileHash.insert c s k v with
      | error e => rfl
      | ok t => exact ih t

theorem insertAll_mem_phase (c : Codec V) (ps : List (K × V)) (s : FileHash K V)
    (hud : s.using_disk = false)
    (hfresh : ∀ p ∈ ps, p.1 ∉ s.in_memory.map Prod.fst)
    (hnd : (ps.map Prod.fst).Nodup)
    (hcap : s.in_memory.length + ps.length ≤ s.max_mem_entries) :
    insertAll c s ps = .ok { s with in_memory := ps.reverse ++ s.in_memory } := by
  induction ps generalizing s with
  | nil => rfl
  | cons p rest ih =>
      obtain ⟨k, v⟩ := p
      simp only [List.map_cons, List.nodup_cons] at hnd
      simp only [List.length_cons] at hcap
      rw [insertAll]
      have hins : FileHash.insert c s k v
          = .ok { s with in_memory := insertPair s.in_memory k v } := by
        unfold FileHash.insert FileHash.insert_mem
        rw [if_neg (by rw [hud]; simp), if_neg (by omega)]
      rw [hins]
      have hinsPair : insertPair s.in_memory k v = (k, v) :: s.in_memory := by
        unfold insertPair
        rw [eraseKey_of_not_mem s.in_memory k (hfresh (k, v) (List.mem_cons_self _ _))]
      rw [hinsPair]
      dsimp only
      rw [ih { s with in_memory := (k, v) :: s.in_memory } hud ?fresh hnd.2 ?cap]
      case fresh =>
        intro q hq
        simp only [List.map_cons, List.mem_cons]
        push_neg
        constructor
        · intro hc
          exact hnd.1 (hc ▸ List.mem_map.mpr ⟨q, hq, rfl⟩)
        · exact hfresh q (List.mem_cons_of_mem _ hq)
      case cap =>
        simp only [List.length_cons]
        omega
      simp [List.append_assoc]

theorem insert_disk_fresh (c : Codec V) (s : FileHash K V) (k : K) (v : V)
    (hpois : (s.file_handle.getD ⟨false, []⟩).poisoned = false)
    (hfree : s.disk_free = [])
    (hnot : lookup s.id2pos k = none) :
    FileHash.insert_disk c s k v = .ok
      { s with
        file_handle := some ⟨false, (s.file_handle.getD ⟨false, []⟩).data ++ c.encode v⟩
        id2pos := insertPair s.id2pos k
          ((s.file_handle.getD ⟨false, []⟩).data.length, (c.encode v).length)
        disk_free := [] } := by
  unfold FileHash.insert_disk
  rw [if_neg (by rw [hpois]; simp)]
  rw [release_storage_of_lookup_none
    { s with file_handle := some (s.file_handle.getD ⟨false, []⟩) } k hnot]
  rw [hfree]
  dsimp only
  rw [show get_file_pos_to_write (s.file_handle.getD ⟨false, []⟩).data.length []
      (c.encode v).length
      = ((s.file_handle.getD ⟨false, []⟩).data.length, ([] : List (Nat × Nat))) from rfl]
  rw [write_at_at_end]

theorem read_exact_append_self (d b : List Nat) :
    read_exact (d ++ b) d.length b.length = some b := by
  rw [read_exact, if_pos (by rw [List.length_append]; omega)]
  rw [List.drop_left, List.take_length]

/-- A fresh-key, empty-free-list `insert_disk` appends at end of file; it
reads back the new value and disturbs no other key. -/
theorem insert_disk_fresh_reads (c : Codec V) (s : FileHash K V) (k : K) (v : V)
    (hpois : (s.file_handle.getD ⟨false, []⟩).poisoned = false)
    (hhandle : s.file_handle = none → s.id2pos = [])
    (hfree : s.disk_free = [])
    (hnot : lookup s.id2pos k = none)
    (hsound : ∀ k₀ pl, lookup s.id2pos k₀ = some pl →
        pl.1 + pl.2 ≤ (s.file_handle.getD ⟨false, []⟩).data.length)
    (hcodec : c.decode (c.encode v) = some v) :
    ∃ s', FileHash.insert_disk c s k v = .ok s' ∧
      FileHash.get_disk c s' k = some v ∧
      (∀ k₀, k₀ ≠ k → FileHash.get_disk c s' k₀ = FileHash.get_disk c s k₀) ∧
      (∀ k₀, k₀ ≠ k → lookup s'.id2pos k₀ = lookup s.id2pos k₀) ∧
      (∀ k₀ pl, lookup s'.id2pos k₀ = some pl →
          pl.1 + pl.2 ≤ (s'.file_handle.getD ⟨false, []⟩).data.length) ∧
      s'.disk_free = [] ∧ s'.in_memory = s.in_memory ∧
      s'.using_disk = s.using_disk ∧ s'.max_mem_entries = s.max_mem_entries ∧
      (s'.file_handle.getD ⟨false, []⟩).poisoned = false ∧
      s'.file_handle.isSome = true := by
  refine ⟨_, insert_disk_fresh c s k v hpois hfree hnot, ?_, ?_, ?_, ?_,
    rfl, rfl, rfl, rfl, rfl, rfl⟩
  · show FileHash.get_disk c _ k = some v
    unfold FileHash.get_disk
    dsimp only
    rw [lookup_insertPair_self]
    simp [read_exact_append_self, hcodec]
  · intro k₀ hne
    show FileHash.get_disk c _ k₀ = FileHash.get_disk c s k₀
    cases hfh : s.file_handle with
    | none =>
        have hid := hhandle hfh
        simp only [FileHash.get_disk, hfh, Option.getD_none,
          lookup_insertPair_ne _ k k₀ _ (Ne.symm hne), hid]
        simp [lookup]
    | some fh =>
        have hpois' : fh.poisoned = false := by
          rw [hfh] at hpois
          simpa using hpois
        simp only [FileHash.get_disk, hfh, Option.getD_some, hpois',
          lookup_insertPair_ne _ k k₀ _ (Ne.symm hne), Bool.false_eq_true, if_false]
        cases hlk : lookup s.id2pos k₀ with
        | none => simp [hlk]
        | some pl =>
            have hs := hsound k₀ pl hlk
            rw [hfh, Option.getD_some] at hs
            simp [hlk, read_exact_append fh.data (c.encode v) pl.1 pl.2 hs]
  · intro k₀ hne
    show lookup (insertPair s.id2pos k _) k₀ = lookup s.id2pos k₀
    exact lookup_insertPair_ne _ k k₀ _ (Ne.symm hne)
  · intro k₀ pl hl
    by_cases hk : k₀ = k
    · subst hk
      rw [show lookup _ k₀ = some ((s.file_handle.getD ⟨false, []⟩).data.length,
          (c.encode v).length) from lookup_insertPair_self _ _ _] at hl
      obtain rfl : pl = ((s.file_handle.getD ⟨false, []⟩).data.length,
          (c.encode v).length) := by simpa using hl.symm
      simp [List.length_append]
    · rw [show lookup _ k₀ = lookup s.id2pos k₀
          from lookup_insertPair_ne _ k k₀ _ (Ne.symm hk)] at hl
      have hs := hsound k₀ pl hl
      simp only [Option.getD_some, List.length_append]
      omega

/-- The flush loop on fresh keys: each in-memory entry lands on disk
readable, nothing else is disturbed, and the file state stays sound. -/
theorem flushKeys_spec (c : Codec V) (ks : List K) (s : FileHash K V)
    (hpois : (s.file_handle.getD ⟨false, []⟩).poisoned = false)
    (hhandle : s.file_handle = none → s.id2pos = [])
    (hfree : s.disk_free = [])
    (hnd : ks.Nodup)
    (hknot : ∀ k ∈ ks, lookup s.id2pos k = none)
    (hmem : ∀ k ∈ ks, ∃ v, lookup s.in_memory k = some v ∧ c.decode (c.encode v) = some v)
    (hsound : ∀ k₀ pl, lookup s.id2pos k₀ = some pl →
        pl.1 + pl.2 ≤ (s.file_handle.getD ⟨false, []⟩).data.length) :
    ∃ t, FileHash.flushKeys c s ks = .ok t ∧
      t.in_memory = s.in_memory ∧ t.using_disk = s.using_disk ∧
      t.max_mem_entries = s.max_mem_entries ∧ t.disk_free = [] ∧
      (t.file_handle.getD ⟨false, []⟩).poisoned = false ∧
      (t.file_handle = none → t.id2pos = []) ∧
      (∀ k₀ pl, lookup t.id2pos k₀ = some pl →
          pl.1 + pl.2 ≤ (t.file_handle.getD ⟨false, []⟩).data.length) ∧
      (∀ k v, k ∈ ks → lookup s.in_memory k = some v → FileHash.get_disk c t k = some v) ∧
      (∀ k₀, k₀ ∉ ks → FileHash.get_disk c t k₀ = FileHash.get_disk c s k₀) ∧
      (∀ k₀, k₀ ∉ ks → lookup t.id2pos k₀ = lookup s.id2pos k₀) := by
  induction ks generalizing s with
  | nil =>
      refine ⟨s, rfl, rfl, rfl, rfl, hfree, hpois, hhandle, hsound, ?_, ?_, ?_⟩
      · intro k v hk
        simp at hk
      · intro k₀ _
        rfl
      · intro k₀ _
        rfl
  | cons k rest ih =>
      obtain ⟨v, hv, hvc⟩ := hmem k (List.mem_cons_self _ _)
      obtain ⟨hknd, hrnd⟩ := List.nodup_cons.mp hnd
      obtain ⟨s₁, heq, hget1, hpresget, hpreslook, hsound1, hfree1, hmem1, hud1, hmax1,
        hpois1, hsome1⟩ :=
        insert_disk_fresh_reads c s k v hpois hhandle hfree
          (hknot k (List.mem_cons_self _ _)) hsound hvc
      have hhandle1 : s₁.file_handle = none → s₁.id2pos = [] := by
        intro h
        rw [h] at hsome1
        simp at hsome1
      have hknot1 : ∀ k' ∈ rest, lookup s₁.id2pos k' = none := by
        intro k' hk'
        have hne : k' ≠ k := fun hc => hknd (hc ▸ hk')
        rw [hpreslook k' hne]
        exact hknot k' (List.mem_cons_of_mem _ hk')
      have hmemr : ∀ k' ∈ rest, ∃ v', lookup s₁.in_memory k' = some v' ∧
          c.decode (c.encode v') = some v' := by
        intro k' hk'
        rw [hmem1]
        exact hmem k' (List.mem_cons_of_mem _ hk')
      obtain ⟨t, heqt, htmem, htud, htmax, htfree, htpois, hthandle, htsound, htget,
        htpresget, htpreslook⟩ := ih s₁ hpois1 hhandle1 hfree1 hrnd hknot1 hmemr hsound1
      refine ⟨t, ?_, ?_, ?_, ?_, htfree, htpois, hthandle, htsound, ?_, ?_, ?_⟩
      · rw [FileHash.flushKeys, hv]
        dsimp only
        rw [heq]
        dsimp only
        exact heqt
      · rw [htmem, hmem1]
      · rw [htud, hud1]
      · rw [htmax, hmax1]
      · intro k₀ v₀ hk₀ hl₀
        rcases List.mem_cons.mp hk₀ with rfl | hk₀
        · obtain rfl : v₀ = v := by
            rw [hv] at hl₀
            simpa using hl₀.symm
          rw [htpresget k₀ hknd]
          exact hget1
        · have hne : k₀ ≠ k := fun hc => hknd (hc ▸ hk₀)
          apply htget k₀ v₀ hk₀
          rw [hmem1]
          exact hl₀
      · intro k₀ hk₀
        have hnr : k₀ ∉ rest := fun hc => hk₀ (List.mem_cons_of_mem _ hc)
        have hne : k₀ ≠ k := fun hc => hk₀ (hc ▸ List.mem_cons_self _ _)
        rw [htpresget k₀ hnr, hpresget k₀ hne]
      · intro k₀ hk₀
        have hnr : k₀ ∉ rest := fun hc => hk₀ (List.mem_cons_of_mem _ hc)
        have hne : k₀ ≠ k := fun hc => hk₀ (hc ▸ List.mem_cons_self _ _)
        rw [htpreslook k₀ hnr, hpreslook k₀ hne]

/-- `flush_mem_to_disk` on a store with empty index and free list: every
in-memory entry becomes readable from disk and the store flips to
disk-backed. -/
theorem flush_spec (c : Codec V) (s : FileHash K V)
    (hpois : (s.file_handle.getD ⟨false, []⟩).poisoned = false)
    (hhandle : s.file_handle = none → s.id2pos = [])
    (hfree : s.disk_free = [])
    (hid : s.id2pos = [])
    (hmemnd : (s.in_memory.map Prod.fst).Nodup)
    (hcodec : ∀ p ∈ s.in_memory, c.decode (c.encode p.2) = some p.2) :
    ∃ t, FileHash.flush_mem_to_disk c s = .ok t ∧ t.using_disk = true ∧
      t.in_memory = [] ∧ t.disk_free = [] ∧ t.max_mem_entries = s.max_mem_entries ∧
      (t.file_handle.getD ⟨false, []⟩).poisoned = false ∧
      (t.file_handle = none → t.id2pos = []) ∧
      (∀ k₀ pl, lookup t.id2pos k₀ = some pl →
          pl.1 + pl.2 ≤ (t.file_handle.getD ⟨false, []⟩).data.length) ∧
      (∀ k v, lookup s.in_memory k = some v → FileHash.get_disk c t k = some v) ∧
      (∀ k, k ∉ s.in_memory.map Prod.fst → lookup t.id2pos k = none) := by
  obtain ⟨u, hequ, humem, huud, humax, hufree, hupois, huhandle, husound, huget,
    hupresget, hupreslook⟩ :=
    flushKeys_spec c (s.in_memory.map Prod.fst) s hpois hhandle hfree hmemnd
      (fun k _ => by rw [hid]; rfl)
      (fun k hk => by
        have hsome := lookup_isSome_of_mem_keys s.in_memory k hk
        obtain ⟨v, hv⟩ := Option.isSome_iff_exists.mp hsome
        exact ⟨v, hv, hcodec (k, v) (mem_of_lookup_eq_some s.in_memory k v hv)⟩)
      (fun k₀ pl h => by rw [hid] at h; simp [lookup] at h)
  refine ⟨{ u with in_memory := [], using_disk := true }, ?_, rfl, rfl, hufree, humax,
    hupois, huhandle, husound, ?_, ?_⟩
  · rw [FileHash.flush_mem_to_disk, hequ]
  · intro k v hv
    have hk : k ∈ s.in_memory.map Prod.fst :=
      List.mem_map.mpr ⟨(k, v), mem_of_lookup_eq_some s.in_memory k v hv, rfl⟩
    exact huget k v hk hv
  · intro k hk
    rw [hupreslook k hk, hid]
    rfl

/-- C2: with `max_mem_entries = N` on a fresh store, inserting `N + 1` pairs
with pairwise-distinct keys (whose values decode back) succeeds, leaves the
store disk-backed, and every one of the `N + 1` keys is still retrievable
with its inserted value. -/
theorem FileHash.threshold_transition (c : Codec V) (N : Nat) (pairs : List (K × V))
    (hlen : pairs.length = N + 1)
    (hnd : (pairs.map Prod.fst).Nodup)
    (hcodec : ∀ p ∈ pairs, c.decode (c.encode p.2) = some p.2) :
    ∃ s', insertAll c (FileHash.set_max_mem_entries FileHash.new N) pairs = .ok s' ∧
      s'.using_disk = true ∧
      ∀ p ∈ pairs, FileHash.get c s' p.1 = some p.2 := by
  rcases List.eq_nil_or_concat pairs with rfl | ⟨front, last, hpe⟩
  · simp at hlen
  rw [List.concat_eq_append] at hpe
  subst hpe
  obtain ⟨kl, vl⟩ := last
  have hflen : front.length = N := by simpa using hlen
  have hmap : (front.map Prod.fst ++ [kl]).Nodup := by simpa using hnd
  have hfrontnd : (front.map Prod.fst).Nodup := (List.nodup_append.mp hmap).1
  have hklnotin : kl ∉ front.map Prod.fst := by
    intro hc
    exact (List.nodup_append.mp hmap).2.2 hc (List.mem_singleton_self kl)
  have hs0 : FileHash.set_max_mem_entries (FileHash.new (K := K) (V := V)) N
      = { id2pos := [], file_handle := none, in_memory := [], disk_free := []
          max_mem_entries := N, using_disk := false } := rfl
  rw [hs0]
  rw [insertAll_append]
  rw [insertAll_mem_phase c front _ rfl (by intro p _; simp) hfrontnd
    (by simp [hflen])]
  dsimp only
  set s1 : FileHash K V :=
    { id2pos := [], file_handle := none, in_memory := front.reverse ++ [], disk_free := []
      max_mem_entries := N, using_disk := false } with hs1
  have hs1mem : s1.in_memory = front.reverse := by simp [hs1]
  have hs1nd : (s1.in_memory.map Prod.fst).Nodup := by
    rw [hs1mem]
    rw [show front.reverse.map Prod.fst = (front.map Prod.fst).reverse from
      List.map_reverse _ _]
    exact List.nodup_reverse.mpr hfrontnd
  obtain ⟨t, heqt, htud, htmem, htfree, htmax, htpois, hthandle, htsound, htget, htnot⟩ :=
    flush_spec c s1 rfl (fun _ => rfl) rfl rfl hs1nd
      (by
        intro p hp
        rw [hs1mem] at hp
        exact hcodec p (List.mem_append_left _ (List.mem_reverse.mp hp)))
  obtain ⟨s', heqs, hgetl, hpresget, hpreslook, hsound', hfree', hmem', hud', hmax',
    hpois', hsome'⟩ :=
    insert_disk_fresh_reads c t kl vl htpois hthandle htfree
      (by
        apply htnot
        rw [hs1mem]
        rw [show front.reverse.map Prod.fst = (front.map Prod.fst).reverse from
          List.map_reverse _ _]
        simpa using hklnotin)
      htsound
      (hcodec (kl, vl) (List.mem_append_right _ (List.mem_singleton_self _)))
  have hins : FileHash.insert c s1 kl vl = .ok s' := by
    unfold FileHash.insert FileHash.insert_mem
    rw [if_neg (by simp [hs1]), if_pos (by simp [hs1]; omega)]
    rw [heqt]
    dsimp only
    exact heqs
  refine ⟨s', ?_, ?_, ?_⟩
  · rw [insertAll, hins]
    rfl
  · rw [hud', htud]
  · intro p hp
    have hudx : s'.using_disk = true := by rw [hud', htud]
    rw [FileHash.get, if_pos hudx]
    rcases List.mem_append.mp hp with hpf | hpl
    · obtain ⟨kp, vp⟩ := p
      have hkp : kp ≠ kl := by
        intro hc
        exact hklnotin (hc ▸ List.mem_map.mpr ⟨(kp, vp), hpf, rfl⟩)
      rw [hpresget kp hkp]
      apply htget
      rw [hs1mem]
      exact lookup_of_mem_nodup front.reverse kp vp
        (by
          rw [show front.reverse.map Prod.fst = (front.map Prod.fst).reverse from
            List.map_reverse _ _]
          exact List.nodup_reverse.mpr hfrontnd)
        (List.mem_reverse.mpr hpf)
    · obtain rfl : p = (kl, vl) := by simpa using hpl
      exact hgetl

/-- Witness for C2 at threshold 1 with the two pairs `(1,10)`, `(2,20)`. -/
theorem FileHash.threshold_transition_witness :
    ∃ s' : FileHash Nat Nat,
      insertAll natCodec (FileHash.set_max_mem_entries FileHash.new 1) [(1, 10), (2, 20)]
        = .ok s' ∧
      s'.using_disk = true ∧
      ∀ p ∈ [((1 : Nat), (10 : Nat)), (2, 20)],
        FileHash.get natCodec s' p.1 = some p.2 :=
  FileHash.threshold_transition natCodec 1 [(1, 10), (2, 20)] rfl (by decide) (by decide)

/-! ## C9 — FileVec reverse -/

theorem lookup_swapPairs {A : Type} (m : List (K × A)) (i j x : K) (hij : i ≠ j) :
    lookup (swapPairs m i j) x =
      if x = i then lookup m j else if x = j then lookup m i else lookup m x := by
  unfold swapPairs
  have hv2 : lookup (eraseKey m i) j = lookup m j := lookup_eraseKey_ne m i j hij
  have hm2i : lookup (eraseKey (eraseKey m i) j) i = none := by
    rw [lookup_eraseKey_ne _ j i (Ne.symm hij)]
    exact lookup_eraseKey_self m i
  have hm2j : lookup (eraseKey (eraseKey m i) j) j = none := lookup_eraseKey_self _ j
  have hm2x : ∀ y, y ≠ i → y ≠ j → lookup (eraseKey (eraseKey m i) j) y = lookup m y := by
    intro y hyi hyj
    rw [lookup_eraseKey_ne _ j y (Ne.symm hyj), lookup_eraseKey_ne _ i y (Ne.symm hyi)]
  cases h1 : lookup m i with
  | none =>
      cases h2 : lookup (eraseKey m i) j with
      | none =>
          dsimp only
          rw [h2]
          dsimp only
          by_cases hx1 : x = i
          · subst hx1
            rw [if_pos rfl, hm2i, ← hv2, h2]
          · by_cases hx2 : x = j
            · subst hx2
              rw [if_neg hx1, if_pos rfl, hm2j]
            · rw [if_neg hx1, if_neg hx2]
              exact hm2x x hx1 hx2
      | some b =>
          dsimp only
          rw [h2]
          dsimp only
          by_cases hx1 : x = i
          · subst hx1
            rw [if_pos rfl, lookup_insertPair_self, ← hv2, h2]
          · by_cases hx2 : x = j
            · subst hx2
              rw [if_neg hx1, if_pos rfl, lookup_insertPair_ne _ i x _ (fun hc => hx1 hc.symm),
                hm2j]
            · rw [if_neg hx1, if_neg hx2,
                lookup_insertPair_ne _ i x _ (fun hc => hx1 hc.symm)]
              exact hm2x x hx1 hx2
  | some a =>
      cases h2 : lookup (eraseKey m i) j with
      | none =>
          dsimp only
          rw [h2]
          dsimp only
          by_cases hx1 : x = i
          · subst hx1
            rw [if_pos rfl, lookup_insertPair_ne _ j x _ (fun hc => hij hc.symm),
              hm2i, ← hv2, h2]
          · by_cases hx2 : x = j
            · subst hx2
              rw [if_neg hx1, if_pos rfl, lookup_insertPair_self]
            · rw [if_neg hx1, if_neg hx2,
                lookup_insertPair_ne _ j x _ (fun hc => hx2 hc.symm)]
              exact hm2x x hx1 hx2
      | some b =>
          dsimp only
          rw [h2]
          dsimp only
          by_cases hx1 : x = i
          · subst hx1
            rw [if_pos rfl, lookup_insertPair_ne _ j x _ (fun hc => hij hc.symm),
              lookup_insertPair_self, ← hv2, h2]
          · by_cases hx2 : x = j
            · subst hx2
              rw [if_neg hx1, if_pos rfl, lookup_insertPair_self]
            · rw [if_neg hx1, if_neg hx2,
                lookup_insertPair_ne _ j x _ (fun hc => hx2 hc.symm),
                lookup_insertPair_ne _ i x _ (fun hc => hx1 hc.symm)]
              exact hm2x x hx1 hx2

theorem get_disk_lookup_congr (c : Codec V) (s : FileHash K V)
    (m : List (K × Nat × Nat)) (x y : K)
    (h : lookup m x = lookup s.id2pos y) :
    FileHash.get_disk c { s with id2pos := m } x = FileHash.get_disk c s y := by
  unfold FileHash.get_disk
  dsimp only
  rw [h]

/-- `FileHash::swap` exchanges exactly the two keys' observable values, in
either storage mode. -/
theorem FileHash.get_swap (c : Codec V) (s : FileHash K V) (i j x : K) :
    FileHash.get c (FileHash.swap s i j) x =
      if x = i then FileHash.get c s j
      else if x = j then FileHash.get c s i
      else FileHash.get c s x := by
  by_cases hij : i = j
  · subst hij
    unfold FileHash.swap
    rw [if_pos rfl]
    by_cases hx : x = i
    · rw [if_pos hx, hx]
    · rw [if_neg hx, if_neg hx]
  · unfold FileHash.swap
    rw [if_neg hij]
    cases hud : s.using_disk with
    | false =>
        rw [if_neg (by simp)]
        have hlhs : FileHash.get c (FileHash.swap_mem s i j) x
            = lookup (swapPairs s.in_memory i j) x := by
          unfold FileHash.get FileHash.swap_mem
          rw [if_neg (by simp [hud])]
        rw [hlhs, lookup_swapPairs s.in_memory i j x hij]
        unfold FileHash.get
        rw [hud]
        simp only [Bool.false_eq_true, if_false]
    | true =>
        rw [if_pos rfl]
        have hlhs : FileHash.get c (FileHash.swap_disk s i j) x
            = FileHash.get_disk c { s with id2pos := swapPairs s.id2pos i j } x := by
          unfold FileHash.get FileHash.swap_disk
          rw [if_pos (by simp [hud])]
        rw [hlhs]
        have hlk := lookup_swapPairs s.id2pos i j x hij
        by_cases hx1 : x = i
        · rw [if_pos hx1]
          unfold FileHash.get
          rw [if_pos hud]
          exact get_disk_lookup_congr c s _ x j (by rw [hlk, if_pos hx1])
        · by_cases hx2 : x = j
          · rw [if_neg hx1, if_pos hx2]
            unfold FileHash.get
            rw [if_pos hud]
            exact get_disk_lookup_congr c s _ x i (by rw [hlk, if_neg hx1, if_pos hx2])
          · rw [if_neg hx1, if_neg hx2]
            unfold FileHash.get
            rw [if_pos hud]
            exact get_disk_lookup_congr c s _ x x (by rw [hlk, if_neg hx1, if_neg hx2])

/-- The two-cursor loop of `FileVec::reverse` reflects the segment
`[front, e]` and succeeds whenever `e` is within bounds. -/
theorem revLoop_spec (c : Codec V) :
    ∀ (e : Nat) (fv : FileVec V) (front : Nat),
      e < fv.len →
      ∃ fv', FileVec.revLoop fv front e = .ok fv' ∧ fv'.len = fv.len ∧
        ∀ x, FileVec.get c fv' x =
          if front ≤ x ∧ x ≤ e then FileVec.get c fv (front + e - x)
          else FileVec.get c fv x := by
  intro e
  induction e with
  | zero =>
      intro fv front _
      refine ⟨fv, rfl, rfl, ?_⟩
      intro x
      by_cases hx : front ≤ x ∧ x ≤ 0
      · rw [if_pos hx]
        congr 1
        omega
      · rw [if_neg hx]
  | succ e ih =>
      intro fv front he
      rw [FileVec.revLoop]
      by_cases hf : front < e + 1
      · rw [if_pos hf]
        have hswap : FileVec.swap fv front (e + 1) = .ok
            { fv with file_hash := FileHash.swap fv.file_hash front (e + 1) } := by
          unfold FileVec.swap
          rw [if_neg (by push_neg; omega)]
        rw [hswap]
        dsimp only
        obtain ⟨fv', heq, hlen, hget⟩ :=
          ih { fv with file_hash := FileHash.swap fv.file_hash front (e + 1) }
            (front + 1) (by simpa using (by omega : e < fv.len))
        refine ⟨fv', heq, by simpa using hlen, ?_⟩
        intro x
        rw [hget x]
        have hswapget : ∀ y, FileVec.get c
            { fv with file_hash := FileHash.swap fv.file_hash front (e + 1) } y =
            if y = front then FileVec.get c fv (e + 1)
            else if y = e + 1 then FileVec.get c fv front
            else FileVec.get c fv y := by
          intro y
          show FileHash.get c (FileHash.swap fv.file_hash front (e + 1)) y = _
          rw [FileHash.get_swap c fv.file_hash front (e + 1) y]
          rfl
        by_cases h1 : front + 1 ≤ x ∧ x ≤ e
        · rw [if_pos h1]
          rw [hswapget]
          rw [if_neg (by omega : ¬front + 1 + e - x = front),
            if_neg (by omega : ¬front + 1 + e - x = e + 1),
            if_pos (by omega : front ≤ x ∧ x ≤ e + 1)]
          congr 1
          omega
        · rw [if_neg h1]
          rw [hswapget x]
          by_cases h2 : x = front
          · rw [if_pos h2, if_pos (by omega : front ≤ x ∧ x ≤ e + 1)]
            congr 1
            omega
          · rw [if_neg h2]
            by_cases h3 : x = e + 1
            · rw [if_pos h3, if_pos (by omega : front ≤ x ∧ x ≤ e + 1)]
              congr 1
              omega
            · rw [if_neg h3, if_neg (by omega : ¬(front ≤ x ∧ x ≤ e + 1))]
      · rw [if_neg hf]
        refine ⟨fv, rfl, rfl, ?_⟩
        intro x
        by_cases hx : front ≤ x ∧ x ≤ e + 1
        · rw [if_pos hx]
          congr 1
          omega
        · rw [if_neg hx]

/-- C9 (amended): on every sequence of length at least 1 (and below
`usize::MAX`), `reverse()` succeeds, preserves `len`, and afterwards
`get i` yields the value previously at `len - 1 - i`. On the **empty**
sequence `reverse` does not return successfully: `self.len - 1` underflows
(panic in a debug build; in release it wraps to `usize::MAX` and the first
`swap` fails its bounds check) — see the counterexample. -/
theorem FileVec.reverse_spec (c : Codec V) (fv : FileVec V)
    (h1 : 1 ≤ fv.len) (h2 : fv.len < USIZE_MOD) :
    ∃ fv', FileVec.reverse fv = .ok fv' ∧ fv'.len = fv.len ∧
      ∀ i, i < fv.len → FileVec.get c fv' i = FileVec.get c fv (fv.len - 1 - i) := by
  have he : (fv.len + (USIZE_MOD - 1)) % USIZE_MOD = fv.len - 1 := by
    unfold USIZE_MOD at h2 ⊢
    rw [show fv.len + (2 ^ 64 - 1) = (fv.len - 1) + 2 ^ 64 by omega]
    rw [Nat.add_mod_right]
    exact Nat.mod_eq_of_lt (by omega)
  unfold FileVec.reverse
  rw [he]
  obtain ⟨fv', heq, hlen, hget⟩ := revLoop_spec c (fv.len - 1) fv 0 (by omega)
  refine ⟨fv', heq, hlen, ?_⟩
  intro i hi
  rw [hget i, if_pos (by omega)]
  rw [show 0 + (fv.len - 1) - i = fv.len - 1 - i by omega]

set_option maxRecDepth 10000 in
/-- C9 counterexample: reversing the **empty** sequence does not return
`Ok`: `self.len - 1` wraps around (release mode; debug mode panics), and the
first `swap(0, usize::MAX)` fails its bounds check, so `reverse` returns the
out-of-bounds error instead of succeeding. -/
theorem FileVec.reverse_empty_counterexample :
    FileVec.reverse (FileVec.new : FileVec Nat)
      = .error "Attempting to swap out-of-bounds" := by
  unfold FileVec.reverse
  rw [show ((FileVec.new : FileVec Nat).len + (USIZE_MOD - 1)) % USIZE_MOD
      = (2 ^ 64 - 2) + 1 from by decide]
  rw [FileVec.revLoop]
  rw [if_pos (by norm_num)]
  rw [show FileVec.swap (FileVec.new : FileVec Nat) 0 (2 ^ 64 - 2 + 1)
      = .error "Attempting to swap out-of-bounds" from by
    unfold FileVec.swap
    rw [if_pos (show (FileVec.new : FileVec Nat).len ≤ 0 ∨
        (FileVec.new : FileVec Nat).len ≤ 2 ^ 64 - 2 + 1 from Or.inl (Nat.le_refl 0))]]

/-- Witness for C9 (amended) on a two-element sequence. -/
theorem FileVec.reverse_spec_witness :
    ∃ fv' : FileVec Nat,
      FileVec.reverse
          ⟨{ id2pos := [], file_handle := none, in_memory := [(0, 5), (1, 6)]
             disk_free := [], max_mem_entries := 5, using_disk := false }, 2⟩
        = .ok fv' ∧
      fv'.len = 2 ∧
      ∀ i, i < 2 →
        FileVec.get natCodec fv' i
          = FileVec.get natCodec
              (⟨{ id2pos := [], file_handle := none, in_memory := [(0, 5), (1, 6)]
                  disk_free := [], max_mem_entries := 5, using_disk := false }, 2⟩
                : FileVec Nat) (2 - 1 - i) :=
  FileVec.reverse_spec natCodec
    ⟨{ id2pos := [], file_handle := none, in_memory := [(0, 5), (1, 6)]
       disk_free := [], max_mem_entries := 5, using_disk := false }, 2⟩
    (by decide) (by norm_num [USIZE_MOD])

/-! ## C10 — tiering invariant -/

theorem insert_disk_nodup (c : Codec V) (s : FileHash K V) (k : K) (v : V)
    (s' : FileHash K V) (hok : FileHash.insert_disk c s k v = .ok s')
    (hnd : (s.id2pos.map Prod.fst).Nodup) :
    (s'.id2pos.map Prod.fst).Nodup := by
  obtain ⟨hp, rfl⟩ := insert_disk_ok_elim c s k v s' hok
  dsimp only
  apply nodup_keys_insertPair
  unfold FileHash.release_storage
  cases lookup s.id2pos k with
  | none => exact hnd
  | some pl => exact nodup_keys_eraseKey _ k hnd

theorem flushKeys_inv (c : Codec V) (ks : List K) (s t : FileHash K V)
    (hok : FileHash.flushKeys c s ks = .ok t)
    (hnd : (s.id2pos.map Prod.fst).Nodup) :
    (t.id2pos.map Prod.fst).Nodup ∧ t.in_memory = s.in_memory ∧
    t.using_disk = s.using_disk := by
  induction ks generalizing s with
  | nil =>
      obtain rfl : s = t := by simpa [FileHash.flushKeys] using hok
      exact ⟨hnd, rfl, rfl⟩
  | cons k rest ih =>
      rw [FileHash.flushKeys] at hok
      cases hv : lookup s.in_memory k with
      | none => rw [hv] at hok; exact absurd hok (by simp)
      | some v =>
          rw [hv] at hok
          dsimp only at hok
          cases hins : FileHash.insert_disk c s k v with
          | error e => rw [hins] at hok; exact absurd hok (by simp)
          | ok s₁ =>
              rw [hins] at hok
              dsimp only at hok
              have h1 := ih s₁ hok (insert_disk_nodup c s k v s₁ hins hnd)
              refine ⟨h1.1, ?_, ?_⟩
              · rw [h1.2.1, insert_disk_in_memory c s k v s₁ hins]
              · rw [h1.2.2, insert_disk_using_disk c s k v s₁ hins]

theorem nodup_swapPairs {A : Type} (m : List (K × A)) (i j : K)
    (hnd : (m.map Prod.fst).Nodup) : ((swapPairs m i j).map Prod.fst).Nodup := by
  unfold swapPairs
  have hm2 : ((eraseKey (eraseKey m i) j).map Prod.fst).Nodup :=
    nodup_keys_eraseKey _ j (nodup_keys_eraseKey _ i hnd)
  dsimp only
  cases lookup m i with
  | none =>
      cases lookup (eraseKey m i) j with
      | none => exact hm2
      | some b => exact nodup_keys_insertPair _ i b hm2
  | some a =>
      cases lookup (eraseKey m i) j with
      | none => exact nodup_keys_insertPair _ j a hm2
      | some b => exact nodup_keys_insertPair _ j a (nodup_keys_insertPair _ i b hm2)

theorem insert_inv (c : Codec V) (s s' : FileHash K V) (k : K) (v : V)
    (hok : FileHash.insert c s k v = .ok s') (hinv : TieredInv s) : TieredInv s' := by
  obtain ⟨hmi, hdi, hmn, hdn⟩ := hinv
  unfold FileHash.insert at hok
  cases hud : s.using_disk with
  | true =>
      rw [hud, if_pos rfl] at hok
      have h1 := insert_disk_in_memory c s k v s' hok
      have h2 := insert_disk_using_disk c s k v s' hok
      refine ⟨?_, ?_, ?_, insert_disk_nodup c s k v s' hok hdn⟩
      · intro hc
        rw [h2, hud] at hc
        simp at hc
      · intro _
        rw [h1]
        exact hdi hud
      · rw [h1]
        exact hmn
  | false =>
      rw [hud, if_neg (by simp)] at hok
      unfold FileHash.insert_mem at hok
      by_cases hth : s.max_mem_entries ≤ s.in_memory.length
      · rw [if_pos hth] at hok
        cases hf : FileHash.flush_mem_to_disk c s with
        | error e => rw [hf] at hok; exact absurd hok (by simp)
        | ok s₁ =>
            rw [hf] at hok
            have hs1 : (s₁.id2pos.map Prod.fst).Nodup ∧ s₁.in_memory = []
                ∧ s₁.using_disk = true := by
              unfold FileHash.flush_mem_to_disk at hf
              cases hfk : FileHash.flushKeys c s (s.in_memory.map Prod.fst) with
              | error e => rw [hfk] at hf; exact absurd hf (by simp)
              | ok u =>
                  rw [hfk] at hf
                  simp only [Except.ok.injEq] at hf
                  subst hf
                  exact ⟨(flushKeys_inv c _ s u hfk hdn).1, rfl, rfl⟩
            have h1 := insert_disk_in_memory c s₁ k v s' hok
            have h2 := insert_disk_using_disk c s₁ k v s' hok
            refine ⟨?_, ?_, ?_, insert_disk_nodup c s₁ k v s' hok hs1.1⟩
            · intro hc
              rw [h2, hs1.2.2] at hc
              simp at hc
            · intro _
              rw [h1]
              exact hs1.2.1
            · rw [h1, hs1.2.1]
              simp
      · rw [if_neg hth] at hok
        simp only [Except.ok.injEq] at hok
        subst hok
        refine ⟨fun _ => hmi hud, ?_, nodup_keys_insertPair _ k v hmn, hdn⟩
        intro hc
        simp only [hud] at hc
        exact absurd hc (by simp)

theorem remove_inv (c : Codec V) (s : FileHash K V) (k : K) (hinv : TieredInv s) :
    TieredInv (FileHash.remove c s k).2 := by
  obtain ⟨hmi, hdi, hmn, hdn⟩ := hinv
  unfold FileHash.remove
  cases hud : s.using_disk with
  | true =>
      rw [if_pos rfl]
      by_cases hs : (FileHash.get c s k).isSome = true
      · rw [if_pos hs]
        exact ⟨fun hc => by simp [hud] at hc, fun _ => hdi hud,
          hmn, nodup_keys_eraseKey _ k hdn⟩
      · rw [if_neg hs]
        exact ⟨hmi, hdi, hmn, hdn⟩
  | false =>
      rw [if_neg (by simp)]
      exact ⟨fun _ => hmi hud, fun hc => by simp [hud] at hc,
        nodup_keys_eraseKey _ k hmn, hdn⟩

theorem swap_inv (s : FileHash K V) (i j : K) (hinv : TieredInv s) :
    TieredInv (FileHash.swap s i j) := by
  obtain ⟨hmi, hdi, hmn, hdn⟩ := hinv
  unfold FileHash.swap
  by_cases hij : i = j
  · rw [if_pos hij]
    exact ⟨hmi, hdi, hmn, hdn⟩
  · rw [if_neg hij]
    cases hud : s.using_disk with
    | true =>
        rw [if_pos rfl]
        unfold FileHash.swap_disk
        exact ⟨fun hc => by simp only [hud] at hc; exact absurd hc (by simp),
          fun _ => hdi hud, hmn, nodup_swapPairs _ i j hdn⟩
    | false =>
        rw [if_neg (by simp)]
        unfold FileHash.swap_mem
        exact ⟨fun _ => hmi hud,
          fun hc => by simp only [hud] at hc; exact absurd hc (by simp),
          nodup_swapPairs _ i j hmn, hdn⟩

theorem retainGo_inv (c : Codec V) (f : K → V → Bool) (ks : List K)
    (s : FileHash K V) (hinv : TieredInv s) :
    TieredInv (FileHash.retainGo c f s ks) := by
  induction ks generalizing s with
  | nil => exact hinv
  | cons k rest ih =>
      rw [FileHash.retainGo]
      cases FileHash.get c s k with
      | none => exact ih s hinv
      | some v =>
          dsimp only
          by_cases hf : f k v
          · rw [if_pos hf]
            exact ih s hinv
          · rw [if_neg hf]
            exact ih _ (remove_inv c s k hinv)

theorem reachable_inv (c : Codec V) (s : FileHash K V) (h : Reachable c s) :
    TieredInv s := by
  induction h with
  | new => exact ⟨fun _ => rfl, fun _ => rfl, by simp [FileHash.new], by simp [FileHash.new]⟩
  | insert s s' k v _ hok ih => exact insert_inv c s s' k v hok ih
  | remove s k _ ih => exact remove_inv c s k ih
  | swap s i j _ ih => exact swap_inv s i j ih
  | clear s _ _ => exact ⟨fun _ => rfl, fun _ => rfl, by simp, by simp⟩
  | clear_ok s s' _ hok ih =>
      unfold FileHash.clear at hok
      cases hfh : s.file_handle with
      | none =>
          rw [hfh] at hok
          dsimp only at hok
          simp only [Except.ok.injEq] at hok
          subst hok
          exact ⟨fun _ => rfl, fun _ => rfl, by simp, by simp⟩
      | some fh =>
          rw [hfh] at hok
          dsimp only at hok
          by_cases hp : fh.poisoned = true
          · rw [if_pos hp] at hok
            exact absurd hok (by simp)
          · rw [if_neg hp] at hok
            simp only [Except.ok.injEq] at hok
            subst hok
            exact ⟨fun _ => rfl, fun _ => rfl, by simp, by simp⟩
  | set_max s n _ ih =>
      obtain ⟨hmi, hdi, hmn, hdn⟩ := ih
      exact ⟨fun h => hmi h, fun h => hdi h, hmn, hdn⟩
  | retain s f _ ih => exact retainGo_inv c f (FileHash.keys s) s ih

/-- A successful fallible-write `insert_disk` is the infallible one: when
`insert_diskE` reports no error, `insert_disk` returns `Ok` of the same
state. -/
theorem insert_diskE_none (cap : Nat) (c : Codec V) (s : FileHash K V) (k : K)
    (v : V) (h : (FileHash.insert_diskE cap c s k v).2 = none) :
    FileHash.insert_disk c s k v = .ok (FileHash.insert_diskE cap c s k v).1 := by
  unfold FileHash.insert_diskE at h ⊢
  unfold FileHash.insert_disk
  dsimp only at h ⊢
  split at h
  · exact absurd h (by simp)
  · rename_i hp
    simp only [if_neg hp]
    split at h
    · exact absurd h (by simp)
    · rename_i data2 heq
      unfold write_atE at heq
      split at heq
      · simp only [Except.ok.injEq] at heq
        rw [heq]
      · exact absurd heq (by simp)

/-- A successful fallible-write flush loop is the infallible one. -/
theorem flushKeysE_none (cap : Nat) (c : Codec V) (ks : List K)
    (s : FileHash K V) (h : (FileHash.flushKeysE cap c s ks).2 = none) :
    FileHash.flushKeys c s ks = .ok (FileHash.flushKeysE cap c s ks).1 := by
  induction ks generalizing s with
  | nil => rfl
  | cons k rest ih =>
      rw [FileHash.flushKeysE] at h ⊢
      rw [FileHash.flushKeys]
      cases hv : lookup s.in_memory k with
      | none =>
          rw [hv] at h
          simp at h
      | some v =>
          rw [hv] at h
          dsimp only at h ⊢
          cases hd : FileHash.insert_diskE cap c s k v with
          | mk s2 oe =>
              rw [hd] at h
              cases oe with
              | some e =>
                  simp at h
              | none =>
                  dsimp only at h ⊢
                  have hid := insert_diskE_none cap c s k v (by rw [hd])
                  rw [hd] at hid
                  rw [hid]
                  exact ih s2 h

/-- A successful fallible-write `insert` is the infallible one: when
`insertE` reports no error, `insert` returns `Ok` of the same state. -/
theorem insertE_none (cap : Nat) (c : Codec V) (s : FileHash K V) (k : K)
    (v : V) (h : (FileHash.insertE cap c s k v).2 = none) :
    FileHash.insert c s k v = .ok (FileHash.insertE cap c s k v).1 := by
  unfold FileHash.insertE at h ⊢
  unfold FileHash.insert
  by_cases hud : s.using_disk = true
  · rw [if_pos hud] at h ⊢
    rw [if_pos hud]
    exact insert_diskE_none cap c s k v h
  · rw [if_neg hud] at h ⊢
    rw [if_neg hud]
    unfold FileHash.insert_memE at h ⊢
    unfold FileHash.insert_mem
    by_cases hth : s.max_mem_entries ≤ s.in_memory.length
    · rw [if_pos hth] at h ⊢
      rw [if_pos hth]
      cases hf : FileHash.flush_mem_to_diskE cap c s with
      | mk s2 oe =>
          rw [hf] at h
          cases oe with
          | some e =>
              simp at h
          | none =>
              dsimp only at h ⊢
              have hfm : FileHash.flush_mem_to_disk c s = .ok s2 := by
                unfold FileHash.flush_mem_to_diskE at hf
                unfold FileHash.flush_mem_to_disk
                cases hfk :
                    FileHash.flushKeysE cap c s (s.in_memory.map Prod.fst) with
                | mk s3 oe2 =>
                    rw [hfk] at hf
                    cases oe2 with
                    | some e =>
                        simp at hf
                    | none =>
                        dsimp only at hf
                        simp only [Prod.mk.injEq] at hf
                        have h3 := flushKeysE_none cap c
                          (s.in_memory.map Prod.fst) s (by rw [hfk])
                        rw [hfk] at h3
                        rw [h3]
                        dsimp only
                        rw [hf.1]
              rw [hfm]
              dsimp only
              exact insert_diskE_none cap c s2 k v h
    · rw [if_neg hth] at h ⊢
      rw [if_neg hth]

/-- C10, counterexample to the original claim: on a device with one free
byte, a store with threshold 2 holding keys 1 and 0 in the cache flushes
on the third insert; the write for key 1 succeeds, the write for key 0
fails (disk full) and the `?` at file_hash.rs:206 aborts the flush, so
`insert` returns the error — leaving a reachable state that is still
`InMemory` but whose disk index already holds key 1: cache and index are
both populated, and `len()` is 3 while the store holds 2 keys. -/
theorem FileHash.flush_abort_both_populated_counterexample :
    ReachableE 1 natCodec
      (FileHash.insertE 1 natCodec
        ({ id2pos := [], file_handle := none, in_memory := [(1, 8), (0, 7)],
           disk_free := [], max_mem_entries := 2, using_disk := false } :
          FileHash Nat Nat) 2 9).1 ∧
    (FileHash.insertE 1 natCodec
        ({ id2pos := [], file_handle := none, in_memory := [(1, 8), (0, 7)],
           disk_free := [], max_mem_entries := 2, using_disk := false } :
          FileHash Nat Nat) 2 9).2 = some "No space left on device" ∧
    (FileHash.insertE 1 natCodec
        ({ id2pos := [], file_handle := none, in_memory := [(1, 8), (0, 7)],
           disk_free := [], max_mem_entries := 2, using_disk := false } :
          FileHash Nat Nat) 2 9).1.using_disk = false ∧
    (FileHash.insertE 1 natCodec
        ({ id2pos := [], file_handle := none, in_memory := [(1, 8), (0, 7)],
           disk_free := [], max_mem_entries := 2, using_disk := false } :
          FileHash Nat Nat) 2 9).1.id2pos ≠ [] ∧
    (FileHash.insertE 1 natCodec
        ({ id2pos := [], file_handle := none, in_memory := [(1, 8), (0, 7)],
           disk_free := [], max_mem_entries := 2, using_disk := false } :
          FileHash Nat Nat) 2 9).1.in_memory ≠ [] ∧
    FileHash.len (FileHash.insertE 1 natCodec
        ({ id2pos := [], file_handle := none, in_memory := [(1, 8), (0, 7)],
           disk_free := [], max_mem_entries := 2, using_disk := false } :
          FileHash Nat Nat) 2 9).1
      ≠ (FileHash.keys (FileHash.insertE 1 natCodec
          ({ id2pos := [], file_handle := none, in_memory := [(1, 8), (0, 7)],
             disk_free := [], max_mem_entries := 2, using_disk := false } :
            FileHash Nat Nat) 2 9).1).length := by
  refine ⟨?_, by decide, by decide, by decide, by decide, by decide⟩
  have h0 : ReachableE 1 natCodec (FileHash.new : FileHash Nat Nat) :=
    ReachableE.new
  have h1 := ReachableE.set_max (FileHash.new : FileHash Nat Nat) 2 h0
  have h2 := ReachableE.insert _ 0 7 h1
  have h3 := ReachableE.insert _ 1 8 h2
  have h4 := ReachableE.insert _ 2 9 h3
  exact h4

/-- C10 (amended): in every state reachable through public operations that
return successfully, the in-memory cache and the disk index are never both
populated — before the switch the index is empty, after it the cache is
empty — and `len()`, the sum of the two sizes, equals the number of keys,
each counted exactly once. A failed `insert` escapes this: a write failure
aborts `flush_mem_to_disk` mid-loop and leaves both maps populated, see
the counterexample above. -/
theorem FileHash.tiered_invariant (c : Codec V) (s : FileHash K V)
    (h : Reachable c s) :
    ((s.using_disk = false ∧ s.id2pos = []) ∨
      (s.using_disk = true ∧ s.in_memory = [])) ∧
    FileHash.len s = (FileHash.keys s).length ∧
    (FileHash.keys s).Nodup := by
  obtain ⟨hmi, hdi, hmn, hdn⟩ := reachable_inv c s h
  refine ⟨?_, ?_, ?_⟩
  · cases hud : s.using_disk with
    | false => exact Or.inl ⟨rfl, hmi hud⟩
    | true => exact Or.inr ⟨rfl, hdi hud⟩
  · unfold FileHash.len FileHash.keys
    cases hud : s.using_disk with
    | false =>
        rw [if_neg (by simp), hmi hud]
        simp
    | true =>
        rw [if_pos rfl, hdi hud]
        simp
  · unfold FileHash.keys
    cases hud : s.using_disk with
    | false => rw [if_neg (by simp)]; exact hmn
    | true => rw [if_pos rfl]; exact hdn

/-- Witness for C10 at the reachable state obtained by one insert into a
fresh store. -/
theorem FileHash.tiered_invariant_witness :
    (({ id2pos := [], file_handle := none, in_memory := [(0, 7)], disk_free := [],
        max_mem_entries := 5, using_disk := false } : FileHash Nat Nat).using_disk = false ∧
      ({ id2pos := [], file_handle := none, in_memory := [(0, 7)], disk_free := [],
         max_mem_entries := 5, using_disk := false } : FileHash Nat Nat).id2pos = [] ∨
      ({ id2pos := [], file_handle := none, in_memory := [(0, 7)], disk_free := [],
         max_mem_entries := 5, using_disk := false } : FileHash Nat Nat).using_disk = true ∧
      ({ id2pos := [], file_handle := none, in_memory := [(0, 7)], disk_free := [],
         max_mem_entries := 5, using_disk := false } : FileHash Nat Nat).in_memory = []) ∧
    FileHash.len ({ id2pos := [], file_handle := none, in_memory := [(0, 7)],
                    disk_free := [],
                    max_mem_entries := 5, using_disk := false } : FileHash Nat Nat)
      = (FileHash.keys ({ id2pos := [], file_handle := none, in_memory := [(0, 7)],
                          disk_free := [], max_mem_entries := 5,
                          using_disk := false } : FileHash Nat Nat)).length ∧
    (FileHash.keys ({ id2pos := [], file_handle := none, in_memory := [(0, 7)],
                      disk_free := [],
                      max_mem_entries := 5, using_disk := false } : FileHash Nat Nat)).Nodup :=
  FileHash.tiered_invariant natCodec _
    (Reachable.insert FileHash.new _ 0 7 Reachable.new rfl)

end Wikimisc
